import Mathlib

set_option autoImplicit false

/-!
Shallow embedding of the carbonyl-ftty renderer core
(`src/output/renderer.rs`, `src/output/cell.rs`, `src/output/fidelitty.rs`)
together with the collaborator contracts that live outside `src/`
(geometry types, `binarize_quandrant`, the unicode crates and the
navigation/painter collaborators), which are modelled from the spec.

The cell grid (`Vec<(Cell, Cell)>` in Rust) is embedded as a length plus an
index function; every mutation of the vector becomes a functional override.
Rust operations that can panic (slice indexing out of range) return `Option`.
`u32`/`i32` arithmetic that can wrap in release builds is made explicit with
`% 2^32` / `wrap32` at the spots where the source can overflow.
-/

namespace Carbonyl

/-- Color from the `gfx` module (not under `src/`).
Modelled from the spec: a plain RGB triple with 8-bit channels, here `Nat`. -/
structure Color where
  r : Nat
  g : Nat
  b : Nat
deriving DecidableEq

/-- Modelled from the spec: `Color::black()`, used by `Cell::new`. -/
def Color.black : Color := ⟨0, 0, 0⟩

/-- Modelled from the spec: `Color::avg_with` averages two colors channel-wise
("sample four 1×2-pixel vertical pairs (averaging the two rows)"). -/
def Color.avgWith (a b : Color) : Color :=
  ⟨(a.r + b.r) / 2, (a.g + b.g) / 2, (a.b + b.b) / 2⟩

/-- The 2×2 quadrant of colors stored in a cell
(top-left, top-right, bottom-right, bottom-left). -/
abbrev Quadrant := Color × Color × Color × Color

/-- Grapheme from `cell.rs`: one user-perceived character cluster with its
sub-cell index, display width and color. -/
structure Grapheme where
  char : String
  index : Nat
  width : Nat
  color : Color
deriving DecidableEq

instance : Inhabited Grapheme := ⟨⟨"", 0, 0, Color.black⟩⟩

/-- An `Rc<Grapheme>`: the grapheme content together with an allocation
identity. `Rc::new` in `draw_text` hands out a fresh `id`; cloning an `Rc`
shares the `id`. Rust's `==` on `Rc<Grapheme>` compares the pointed-to
contents, never `id`. -/
structure RcGrapheme where
  id : Nat
  val : Grapheme
deriving DecidableEq

/-- Terminal cell from `cell.rs` (fields in source order). -/
structure Cell where
  cursor : Nat × Nat
  grapheme : Option RcGrapheme
  quadrant : Quadrant
  background : Color
  foreground : Color
  codepoint : Nat
deriving DecidableEq

/-- `Cell::new` from `cell.rs`. -/
def Cell.new (x y : Nat) : Cell :=
  ⟨(x, y), none, (Color.black, Color.black, Color.black, Color.black),
    Color.black, Color.black, 0x20⟩

/-- Cell state with the `Rc` allocation identity forgotten: exactly what
Rust's `#[derive(PartialEq)]` on `Cell` compares, since `Rc<Grapheme>`
equality delegates to the derived content equality of `Grapheme`. -/
structure Cell0 where
  cursor : Nat × Nat
  grapheme : Option Grapheme
  quadrant : Quadrant
  background : Color
  foreground : Color
  codepoint : Nat
deriving DecidableEq

/-- Forget the allocation identity of a cell's grapheme. -/
def Cell.erase (c : Cell) : Cell0 :=
  ⟨c.cursor, c.grapheme.map RcGrapheme.val, c.quadrant, c.background,
    c.foreground, c.codepoint⟩

/-- The double-buffered grid `Vec<(Cell, Cell)>`: pairs are `(previous,
current)` as bound in `render`. Embedded as a length plus an index
function; indices `≥ len` are never touched by any operation. -/
structure Grid where
  len : Nat
  f : Nat → Cell × Cell

/-- Functional override of one slot of the grid. -/
def Grid.set (g : Grid) (i : Nat) (c : Cell × Cell) : Grid :=
  ⟨g.len, fun j => if j = i then c else g.f j⟩

/-- Terminal size in cells, `Size` from the `gfx` module (u32 fields). -/
structure Size where
  width : Nat
  height : Nat
deriving DecidableEq

/-- Cell-space rectangle as passed to `Renderer::draw` (`Rect::new(x, y, w, h)`). -/
structure Rect where
  x : Nat
  y : Nat
  w : Nat
  h : Nat
deriving DecidableEq

/-- Wrap an integer into the `i32` range, the release-mode semantics of any
overflowing `i32` arithmetic in the source. -/
def wrap32 (z : Int) : Int := (z + 2 ^ 31) % 2 ^ 32 - 2 ^ 31

/-- The `as usize` cast of an `i32` value: sign-extension, i.e. reduction
mod `2^64`. -/
def i32ToUsize (z : Int) : Nat := (z % 2 ^ 64).toNat

/-! ## `Renderer::draw` and `fill_rect` -/

/-- The per-cell mutation of `fill_rect`: clear the grapheme and paint a
uniform quadrant/background/foreground with a space glyph. -/
def fillCell (color : Color) (c : Cell) : Cell :=
  { c with
    grapheme := none
    quadrant := (color, color, color, color)
    background := color
    foreground := color
    codepoint := 0x20 }

/-- Apply a mutator to the current cell of every pair in `[l, r)`, the
embedding of `for (_, current) in self.cells[left..right].iter_mut()`.
Rust slicing panics unless `l ≤ r ≤ len`, hence the `Option`. -/
def applyRowCur (l r : Nat) (m : Cell → Cell) (g : Grid) : Option Grid :=
  if l ≤ r ∧ r ≤ g.len then
    some ⟨g.len, fun i => if l ≤ i ∧ i < r then ((g.f i).1, m (g.f i).2) else g.f i⟩
  else none

/-- Row loop of `Renderer::draw`: rows `y, y+1, ..., y+n-1`, each covering
columns `[ox, ox+w)` of the flat `y * W + x` layout. -/
def drawRowsAux (m : Cell → Cell) (W ox w : Nat) : Nat → Nat → Grid → Option Grid
  | _, 0, g => some g
  | y, n + 1, g => (applyRowCur (y * W + ox) (y * W + ox + w) m g).bind
      (drawRowsAux m W ox w (y + 1) n)

/-- `Renderer::draw`: apply `m` to every current cell in the rectangle. -/
def drawOp (bounds : Rect) (m : Cell → Cell) (W : Nat) (g : Grid) : Option Grid :=
  drawRowsAux m W bounds.x bounds.w bounds.y bounds.h g

/-- `Renderer::fill_rect`. -/
def fillRect (rect : Rect) (color : Color) (W : Nat) (g : Grid) : Option Grid :=
  drawOp rect (fillCell color) W g

/-! ## `Renderer::draw_text` -/

/-- One grapheme cluster of the input string together with its display width.
Modelled from the spec: `UnicodeSegmentation::graphemes(string, true)` and
`UnicodeWidthStr::width` are external crates, so a string enters the model
already decomposed into clusters carrying their East-Asian widths. -/
structure GCluster where
  char : String
  width : Nat
deriving DecidableEq

/-- Modelled from the spec: `str::width()` of the whole string, used by
`render` to size the background rectangle of an overlay element. -/
def textWidth (text : List GCluster) : Nat := (text.map GCluster.width).sum

/-- The cluster walk of `draw_text`: for each cluster, one `Grapheme` per
covered cell with an incrementing sub-cell index. -/
def flattenText (text : List GCluster) (color : Color) : List Grapheme :=
  text.flatMap fun c => (List.range c.width).map fun i => ⟨c.char, i, c.width, color⟩

/-- One cell update of the place-mode loop: build `next` and replace the
stored grapheme only when the stored color or text differs (allocating a
fresh `Rc` identity), else keep the existing shared instance. -/
def textStep (c : Cell) (n : Grapheme) (nid : Nat) : Cell × Nat :=
  match c.grapheme with
  | none => ({ c with grapheme := some ⟨nid, n⟩ }, nid + 1)
  | some p =>
    if p.val.color ≠ n.color ∨ p.val.char ≠ n.char then
      ({ c with grapheme := some ⟨nid, n⟩ }, nid + 1)
    else (c, nid)

/-- Sequential write of the flattened grapheme list starting at `pos`,
stopping silently at the end of the buffer (the `None => return` arm of
`iter.next()`); threads the `Rc` allocation counter. -/
def writeSeq : Grid → Nat → Nat → List Grapheme → Grid × Nat
  | g, _, nid, [] => (g, nid)
  | g, pos, nid, n :: ns =>
    if pos < g.len then
      let s := textStep (g.f pos).2 n nid
      writeSeq (g.set pos ((g.f pos).1, s.1)) (pos + 1) s.2 ns
    else (g, nid)

/-- The starting buffer index of place mode:
`origin.x / 2 + (origin.y + 1) / 4 * (viewport.width as i32)` in `i32`
arithmetic (`/` truncates toward zero; overflow wraps). -/
def startIndexRaw (ox oy : Int) (W : Nat) : Int :=
  wrap32 (ox.tdiv 2 + wrap32 ((wrap32 (oy + 1)).tdiv 4 * (W : Int)))

/-- Rounding of an exactly-representable `f32` value: half away from zero. -/
def qround (q : ℚ) : Int := if 0 ≤ q then ⌊q + 1 / 2⌋ else -⌊-q + 1 / 2⌋

/-- One record of the accelerator's output surface (`FttyUnicodePixel` from
`fidelitty.rs`): background RGB, foreground RGB and a codepoint. -/
structure FttyPixel where
  br : Nat
  bg : Nat
  bb : Nat
  fr : Nat
  fg : Nat
  fb : Nat
  codepoint : Nat
deriving DecidableEq

/-- Observable behaviour of the foreign accelerator during one call
sequence: surface nullity, the statuses returned by execute/wait and the
contents of the output surface. The accelerator is an external collaborator
(spec §6); only these values cross the foreign boundary. -/
structure FttyOracle where
  inputNull : Bool
  execStatus : Int
  waitStatus : Int
  outputNull : Bool
  out : Nat → FttyPixel

/-- The renderer's `FidelittyState`: whether the pipeline handle is null,
what pipeline creation/resize would report, and the call oracle. -/
structure FState where
  pipelineNull : Bool
  createFails : Bool
  resizeStatus : Int
  oracle : FttyOracle

/-- Renderer state: viewport size, the double-buffered grid, the `Rc`
allocation counter that witnesses grapheme identity, and the optional
accelerator binding. -/
structure RState where
  size : Size
  grid : Grid
  nextId : Nat
  ftty : Option FState

/-- Place mode of `draw_text`: clamp the start index into the buffer, then
write one grapheme per covered cell. Total: the slice start is `len.min`-ed
and the iterator stops at the end of the buffer. -/
def drawTextPlace (text : List GCluster) (origin : Int × Int) (color : Color)
    (st : RState) : RState :=
  let start := min st.grid.len (i32ToUsize (startIndexRaw origin.1 origin.2 st.size.width))
  let s := writeSeq st.grid start st.nextId (flattenText text color)
  { st with grid := s.1, nextId := s.2 }

/-- Clear-mode row loop: clear the grapheme of every current cell in
`[index + left, index + right)` for rows `top..bottom`. -/
def clearRowsAux (W left right : Nat) : Nat → Nat → Grid → Option Grid
  | _, 0, g => some g
  | y, n + 1, g =>
    (applyRowCur (y * W + left) (y * W + right) (fun c => { c with grapheme := none }) g).bind
      (clearRowsAux W left right (y + 1) n)

/-- `Renderer::draw_text`. Sizes larger than 2×2 pixels select clear mode
(rectangle converted to cell space with `f32` rounding — exact here because
halving/quartering of small integers is exact in `f32`); anything else is
place mode. -/
def drawText (text : List GCluster) (origin : Int × Int) (size : Size)
    (color : Color) (st : RState) : Option RState :=
  if 2 < size.width ∧ 2 < size.height then
    let oxq : ℚ := (origin.1 : ℚ) / 2
    let oyq : ℚ := (origin.2 : ℚ) / 4 + 1
    let swq : ℚ := (size.width : ℚ) / 2
    let shq : ℚ := (size.height : ℚ) / 4
    let left := min st.size.width (qround oxq).toNat
    let right := min st.size.width (qround oxq + qround swq).toNat
    let top := min st.size.height (qround oyq).toNat
    let bottom := min st.size.height (qround oyq + qround shq).toNat
    (clearRowsAux st.size.width left right top (bottom - top) st.grid).map
      fun g => { st with grid := g }
  else
    some (drawTextPlace text origin color st)

/-! ## `Renderer::set_size` and `clear_text` -/

/-- One step of the cursor-position closure in `set_size`: advance `x`
until `bound = width - 1`, then wrap to the next row. -/
def posStep (bound : Nat) (p : Nat × Nat) : Nat × Nat :=
  if p.1 < bound then (p.1 + 1, p.2) else (0, p.2 + 1)

/-- `Renderer::set_size`: rebuild the grid with `width + width * height`
default pairs (u32 arithmetic, wrapping mod `2^32` in release builds) whose
cursors follow the closure recurrence, and create or resize the accelerator
pipeline (both outcomes only toggle the pipeline-null flag in the model). -/
def setSize (size : Size) (st : RState) : RState :=
  let count := (size.width + size.width * size.height % 2 ^ 32) % 2 ^ 32
  let bound := (size.width + 2 ^ 32 - 1) % 2 ^ 32
  let grid : Grid := ⟨count, fun i =>
    let p := (posStep bound)^[i] (0, 0)
    (Cell.new p.1 p.2, Cell.new p.1 p.2)⟩
  let fttyNew := st.ftty.map fun fs =>
    if fs.pipelineNull then { fs with pipelineNull := fs.createFails } else fs
  { st with size := size, grid := grid, ftty := fttyNew }

/-- `Renderer::clear_text`: drop the grapheme of every current cell. -/
def clearText (st : RState) : RState :=
  { st with grid :=
    ⟨st.grid.len, fun i =>
      ((st.grid.f i).1, { (st.grid.f i).2 with grapheme := none })⟩ }

/-! ## `Renderer::draw_background` — CPU fallback path -/

/-- BGRA8888 pixel buffer: a length in bytes plus a byte lookup. Reads
beyond `len` are Rust slice-index panics, surfaced as `none`. -/
structure Pixels where
  len : Nat
  byte : Nat → Nat

/-- Checked byte read. -/
def Pixels.byteAt (p : Pixels) (i : Nat) : Option Nat :=
  if i < p.len then some (p.byte i) else none

/-- The `pixel` closure of `draw_background_fallback`: red at byte offset
`+2`, green `+1`, blue `+0`, row stride `rl = pixels_size.width`. -/
def pixelAt (p : Pixels) (rl x y : Nat) : Option Color := do
  let r ← p.byteAt ((x + y * rl) * 4 + 2)
  let g ← p.byteAt ((x + y * rl) * 4 + 1)
  let b ← p.byteAt ((x + y * rl) * 4 + 0)
  pure ⟨r, g, b⟩

/-- The `pair` closure: average of the pixels at rows `y` and `y + 1`. -/
def pairAt (p : Pixels) (rl x y : Nat) : Option Color := do
  let a ← pixelAt p rl x y
  let b ← pixelAt p rl x (y + 1)
  pure (a.avgWith b)

/-- Total description of an in-range pixel read, used to state results. -/
def pixelTotal (p : Pixels) (rl x y : Nat) : Color :=
  ⟨p.byte ((x + y * rl) * 4 + 2), p.byte ((x + y * rl) * 4 + 1),
    p.byte ((x + y * rl) * 4 + 0)⟩

/-- Total description of an in-range vertical pair average. -/
def pairTotal (p : Pixels) (rl x y : Nat) : Color :=
  (pixelTotal p rl x y).avgWith (pixelTotal p rl x (y + 1))

/-- Codepoint stored from the glyph string:
`ch.chars().next().unwrap_or(' ') as u32`. -/
def glyphCodepoint (s : String) : Nat := (s.toList.head?.getD ' ').toNat

/-- One cell of the fallback loop: sample the 2×2 quadrant at cell column
`cx` and cell row `cy` (pixel column `2*cx`, pixel row `4*cy`), then
quantize. `binq` is `binarize_quandrant`, an external pure codebook lookup
(declared in the `output` module outside `src/`), kept as a parameter. -/
def fbCellUpdate (binq : Quadrant → String × Color × Color) (p : Pixels)
    (rl cx cy : Nat) (c : Cell) : Option Cell := do
  let tl ← pairAt p rl (2 * cx + 0) (4 * cy + 0)
  let tr ← pairAt p rl (2 * cx + 1) (4 * cy + 0)
  let br ← pairAt p rl (2 * cx + 1) (4 * cy + 2)
  let bl ← pairAt p rl (2 * cx + 0) (4 * cy + 2)
  let q : Quadrant := (tl, tr, br, bl)
  let t := binq q
  pure { c with
    quadrant := q
    background := t.2.1
    foreground := t.2.2
    codepoint := glyphCodepoint t.1 }

/-- Column loop of one fallback row: `n` cells starting at column `cx`; the
row's pairs live at grid indices `(cy + 1) * W + column` (guard row). -/
def fbCells (binq : Quadrant → String × Color × Color) (p : Pixels)
    (rl W cy : Nat) : Nat → Nat → Grid → Option Grid
  | _, 0, g => some g
  | cx, n + 1, g =>
    (fbCellUpdate binq p rl cx cy (g.f ((cy + 1) * W + cx)).2).bind fun c =>
      fbCells binq p rl W cy (cx + 1) n
        (g.set ((cy + 1) * W + cx) ((g.f ((cy + 1) * W + cx)).1, c))

/-- One row of `draw_background_fallback`: the `cells[start..end]` slice
bound (a panic when it fails), then the column loop. -/
def fbRow (binq : Quadrant → String × Color × Color) (p : Pixels)
    (rl W left right cy : Nat) (g : Grid) : Option Grid :=
  if left ≤ right ∧ (cy + 1) * W + right ≤ g.len then
    fbCells binq p rl W cy left (right - left) g
  else none

/-- Row loop of `draw_background_fallback` over rows `top..bottom`. -/
def fbRowsAux (binq : Quadrant → String × Color × Color) (p : Pixels)
    (rl W left right : Nat) : Nat → Nat → Grid → Option Grid
  | _, 0, g => some g
  | cy, n + 1, g =>
    (fbRow binq p rl W left right cy g).bind
      (fbRowsAux binq p rl W left right (cy + 1) n)

/-- `Renderer::draw_background_fallback`. -/
def drawBackgroundFallback (binq : Quadrant → String × Color × Color)
    (p : Pixels) (pw top left right bottom : Nat) (st : RState) :
    Option RState :=
  (fbRowsAux binq p pw st.size.width left right top (bottom - top) st.grid).map
    fun g => { st with grid := g }

/-! ## `Renderer::draw_background` — accelerated path -/

/-- Readback of one output-surface record into a current cell. -/
def ftReadCell (o : FttyOracle) (W y cx : Nat) (c : Cell) : Cell :=
  let px := o.out (y * W + cx)
  { c with
    background := ⟨px.br, px.bg, px.bb⟩
    foreground := ⟨px.fr, px.fg, px.fb⟩
    codepoint := px.codepoint }

/-- Column loop of the readback, with the `self.cells[cell_index + cx]`
index check. -/
def ftReadCols (o : FttyOracle) (W y : Nat) : Nat → Nat → Grid → Option Grid
  | _, 0, g => some g
  | cx, n + 1, g =>
    if (y + 1) * W + cx < g.len then
      ftReadCols o W y (cx + 1) n
        (g.set ((y + 1) * W + cx)
          ((g.f ((y + 1) * W + cx)).1, ftReadCell o W y cx (g.f ((y + 1) * W + cx)).2))
    else none

/-- Row loop of the readback over rows `top..bottom`. -/
def ftReadRows (o : FttyOracle) (W left right : Nat) : Nat → Nat → Grid → Option Grid
  | _, 0, g => some g
  | y, n + 1, g =>
    (ftReadCols o W y left (right - left) g).bind (ftReadRows o W left right (y + 1) n)

/-- `Renderer::draw_background_fidelitty`. The copy into the accelerator's
input surface touches only foreign memory, so it does not appear in the
model state; each early return of the source (null input surface, empty
dispatch, failed execute, failed wait, null output surface) leaves the
state untouched. On success the output surface is read back into the
current cells of the dispatched region at row `y + 1` (guard row). -/
def drawBackgroundFidelitty (o : FttyOracle) (top left right bottom : Nat)
    (st : RState) : Option RState :=
  if o.inputNull then some st
  else
    let dispatchW := (right - left) % 2 ^ 16
    let dispatchH := (bottom - top) % 2 ^ 16
    if dispatchW = 0 ∨ dispatchH = 0 then some st
    else if o.execStatus ≠ 0 then some st
    else if o.waitStatus ≠ 0 then some st
    else if o.outputNull then some st
    else
      (ftReadRows o st.size.width left right top (bottom - top) st.grid).map
        fun g => { st with grid := g }

/-- Pixel-space rectangle handed to `draw_background` (i32 fields). -/
structure PixRect where
  x : Int
  y : Int
  w : Int
  h : Int

/-- Region clipping of `draw_background`: clamp the pixel rectangle to
non-negative, convert to cell space by `(2, 4)`, floor the low edges, ceil
the high edges, clamp into the viewport. Computed in `ℚ`, exact for the
`f32` arithmetic of the source on in-range values. Returns
`(top, left, right, bottom)`. -/
def clipRegion (rect : PixRect) (vw vh : Nat) : Nat × Nat × Nat × Nat :=
  let oxq : ℚ := max 0 (rect.x : ℚ) / 2
  let oyq : ℚ := max 0 (rect.y : ℚ) / 4
  let swq : ℚ := max 0 (rect.w : ℚ) / 2
  let shq : ℚ := max 0 (rect.h : ℚ) / 4
  let top := min vh ⌊oyq⌋.toNat
  let left := min vw ⌊oxq⌋.toNat
  let right := max left (min vw ⌈oxq + swq⌉.toNat)
  let bottom := max top (min vh ⌈oyq + shq⌉.toNat)
  (top, left, right, bottom)

/-- `Renderer::draw_background`: the defensive buffer-size check
(`viewport.width * viewport.height * 8 * 4` bytes), region clipping, then
dispatch to the accelerated path when a pipeline exists, else to the CPU
fallback. -/
def drawBackground (binq : Quadrant → String × Color × Color) (p : Pixels)
    (pixelsSize : Size) (rect : PixRect) (st : RState) : Option RState :=
  if p.len < st.size.width * st.size.height * 8 * 4 then some st
  else
    let c := clipRegion rect st.size.width st.size.height
    let useF := match st.ftty with
      | some fs => !fs.pipelineNull
      | none => false
    if useF then
      match st.ftty with
      | some fs => drawBackgroundFidelitty fs.oracle c.1 c.2.1 c.2.2.1 c.2.2.2 st
      | none => some st
    else
      drawBackgroundFallback binq p pixelsSize.width c.1 c.2.1 c.2.2.1 c.2.2.2 st

/-! ## `Renderer::render` -/

/-- One overlay element produced by the navigation collaborator
(spec §6: `render(viewport_size) -> sequence of (origin, {text,
background, foreground})`). -/
structure Element where
  text : List GCluster
  background : Color
  foreground : Color

/-- Paint one `(origin, element)` pair of `render`: fill the background
rectangle `Rect::new(origin.x, origin.y, text.width(), 1)`, then place the
text at pixel origin `origin * (2, 1)` with size 0. -/
def renderPaintEl (st : RState) (oe : (Nat × Nat) × Element) : Option RState :=
  (fillRect ⟨oe.1.1, oe.1.2, textWidth oe.2.text, 1⟩ oe.2.background
      st.size.width st.grid).bind fun g =>
    drawText oe.2.text (wrap32 (2 * (oe.1.1 : Int)), (oe.1.2 : Int)) ⟨0, 0⟩
      oe.2.foreground { st with grid := g }

/-- The overlay-painting loop of `render`. -/
def renderPaint : List ((Nat × Nat) × Element) → RState → Option RState
  | [], st => some st
  | e :: els, st => (renderPaintEl st e).bind (renderPaint els)

/-- Diff pass of `render`: where the current cell differs from the previous
one (Rust `==`, i.e. structural equality modulo `Rc` identity), copy
quadrant, background, foreground, codepoint and the `Rc`-cloned grapheme
into the previous cell; the cursor is not copied. -/
def diffGrid (g : Grid) : Grid :=
  ⟨g.len, fun i =>
    if i < g.len ∧ (g.f i).1.erase ≠ (g.f i).2.erase then
      ({ (g.f i).2 with cursor := (g.f i).1.cursor }, (g.f i).2)
    else g.f i⟩

/-- The cells forwarded to the painter's `paint` call, in buffer order. -/
def paintedCells (g : Grid) : List Cell :=
  (List.range g.len).filterMap fun i =>
    if (g.f i).1.erase = (g.f i).2.erase then none else some (g.f i).2

/-- `Renderer::render`, with the navigation collaborator's elements as
input and the painter's per-cell `paint` calls as output. The painter and
the timing/logging calls are external side channels. -/
def renderStep (els : List ((Nat × Nat) × Element)) (st : RState) :
    Option (RState × List Cell) :=
  (renderPaint els st).map fun st1 =>
    ({ st1 with grid := diffGrid st1.grid }, paintedCells st1.grid)

/-! ## Identity-erased semantics of the overlay paint phase

The diff pass compares cells with Rust `==`, which ignores `Rc`
identities. To reason about it, the overlay-painting loop of `render` is
replayed on `Cell0` grids (current cells with identities erased), where it
decomposes into an independent list of per-cell atomic updates. -/

/-- Grid of current-cell contents with `Rc` identities forgotten. -/
structure Grid0 where
  len : Nat
  f : Nat → Cell0

/-- Projection of the double-buffered grid onto erased current cells. -/
def Grid.curs (g : Grid) : Grid0 := ⟨g.len, fun i => (g.f i).2.erase⟩

/-- Identity-erased `fill_rect` cell mutation. -/
def fillCell0 (color : Color) (c : Cell0) : Cell0 :=
  { c with
    grapheme := none
    quadrant := (color, color, color, color)
    background := color
    foreground := color
    codepoint := 0x20 }

/-- Identity-erased grapheme-slot update of `textStep`: replace the slot
content unless the stored color and text both match. -/
def slotStep (n : Grapheme) : Option Grapheme → Option Grapheme
  | none => some n
  | some p => if p.color ≠ n.color ∨ p.char ≠ n.char then some n else some p

/-- Identity-erased `textStep` cell mutation. -/
def textCell0 (n : Grapheme) (c : Cell0) : Cell0 :=
  { c with grapheme := slotStep n c.grapheme }

/-- One atomic per-cell effect of the paint phase. -/
inductive Atom where
  | fill (color : Color)
  | text (n : Grapheme)

/-- Apply one atom to an erased cell. -/
def Atom.app (c : Cell0) : Atom → Cell0
  | .fill color => fillCell0 color c
  | .text n => textCell0 n c

/-- Run a list of atoms left to right over one erased cell. -/
def execAtoms (L : List Atom) (c : Cell0) : Cell0 := L.foldl Atom.app c

/-- Identity-erased row update. -/
def applyRow0 (l r : Nat) (m : Cell0 → Cell0) (g : Grid0) : Grid0 :=
  ⟨g.len, fun i => if l ≤ i ∧ i < r then m (g.f i) else g.f i⟩

/-- Identity-erased row loop of `Renderer::draw`. -/
def rows0Aux (m : Cell0 → Cell0) (W ox w : Nat) : Nat → Nat → Grid0 → Grid0
  | _, 0, g => g
  | y, n + 1, g =>
    rows0Aux m W ox w (y + 1) n (applyRow0 (y * W + ox) (y * W + ox + w) m g)

/-- Identity-erased `fill_rect`. -/
def fill0 (rect : Rect) (color : Color) (W : Nat) (g : Grid0) : Grid0 :=
  rows0Aux (fillCell0 color) W rect.x rect.w rect.y rect.h g

/-- Identity-erased sequential text write. -/
def write0 : Grid0 → Nat → List Grapheme → Grid0
  | g, _, [] => g
  | g, pos, n :: ns =>
    if pos < g.len then
      write0 ⟨g.len, fun j => if j = pos then textCell0 n (g.f pos) else g.f j⟩
        (pos + 1) ns
    else g

/-- Identity-erased place-mode `draw_text`. -/
def text0 (text : List GCluster) (ox oy : Int) (color : Color) (W : Nat)
    (g : Grid0) : Grid0 :=
  write0 g (min g.len (i32ToUsize (startIndexRaw ox oy W))) (flattenText text color)

/-- Identity-erased background fill of one overlay element. -/
def elFill0 (oe : (Nat × Nat) × Element) (W : Nat) (g : Grid0) : Grid0 :=
  fill0 ⟨oe.1.1, oe.1.2, textWidth oe.2.text, 1⟩ oe.2.background W g

/-- Identity-erased text placement of one overlay element. -/
def elText0 (oe : (Nat × Nat) × Element) (W : Nat) (g : Grid0) : Grid0 :=
  text0 oe.2.text (wrap32 (2 * (oe.1.1 : Int))) (oe.1.2 : Int) oe.2.foreground W g

/-- Identity-erased overlay paint phase of `render`. -/
def paint0 : List ((Nat × Nat) × Element) → Nat → Grid0 → Grid0
  | [], _, g => g
  | e :: els, W, g => paint0 els W (elText0 e W (elFill0 e W g))

/-- Does the row loop starting at row `y` for `n` rows of width `w` touch
flat index `i`? Recursion mirrors `rows0Aux`. -/
def rowsTouch (W ox w : Nat) : Nat → Nat → Nat → Bool
  | _, 0, _ => false
  | y, n + 1, i =>
    decide (y * W + ox ≤ i ∧ i < y * W + ox + w) || rowsTouch W ox w (y + 1) n i

/-- Fill atoms contributed to cell `i` by one element's background rect. -/
def fillAtomsAt (rect : Rect) (color : Color) (W i : Nat) : List Atom :=
  if rowsTouch W rect.x rect.w rect.y rect.h i then [Atom.fill color] else []

/-- Text atoms contributed to cell `i` by one sequential write. -/
def textAtomsAt (start : Nat) (ns : List Grapheme) (len i : Nat) : List Atom :=
  if start ≤ i ∧ i < start + ns.length ∧ i < len then
    [Atom.text (ns.getD (i - start) default)]
  else []

/-- All atoms one element contributes to cell `i`. -/
def elAtoms (oe : (Nat × Nat) × Element) (W len i : Nat) : List Atom :=
  fillAtomsAt ⟨oe.1.1, oe.1.2, textWidth oe.2.text, 1⟩ oe.2.background W i ++
    textAtomsAt
      (min len (i32ToUsize (startIndexRaw (wrap32 (2 * (oe.1.1 : Int))) (oe.1.2 : Int) W)))
      (flattenText oe.2.text oe.2.foreground) len i

/-- All atoms the whole paint phase applies to cell `i`. -/
def paintAtoms : List ((Nat × Nat) × Element) → Nat → Nat → Nat → List Atom
  | [], _, _, _ => []
  | e :: els, W, len, i => elAtoms e W len i ++ paintAtoms els W len i

/-! ## Basic lemmas -/

theorem grid0_ext_of (g h : Grid0) (hlen : g.len = h.len)
    (hf : ∀ i, g.f i = h.f i) : g = h := by
  obtain ⟨l1, f1⟩ := g
  obtain ⟨l2, f2⟩ := h
  dsimp only at hlen hf
  subst hlen
  exact congrArg (Grid0.mk l1) (funext hf)

theorem grid_ext_of (g h : Grid) (hlen : g.len = h.len)
    (hf : ∀ i, g.f i = h.f i) : g = h := by
  obtain ⟨l1, f1⟩ := g
  obtain ⟨l2, f2⟩ := h
  dsimp only at hlen hf
  subst hlen
  exact congrArg (Grid.mk l1) (funext hf)

theorem fillCell0_idem (c : Color) (x : Cell0) :
    fillCell0 c (fillCell0 c x) = fillCell0 c x := rfl

theorem fillCell0_cursor (c : Color) (x : Cell0) :
    (fillCell0 c x).cursor = x.cursor := rfl

theorem textCell0_cursor (n : Grapheme) (x : Cell0) :
    (textCell0 n x).cursor = x.cursor := rfl

theorem rows0Aux_len (m : Cell0 → Cell0) (W ox w : Nat) :
    ∀ (n y : Nat) (g : Grid0), (rows0Aux m W ox w y n g).len = g.len := by
  intro n
  induction n with
  | zero => intro y g; rfl
  | succ n ih => intro y g; exact ih (y + 1) _

theorem rows0Aux_apply (m : Cell0 → Cell0) (hm : ∀ c, m (m c) = m c)
    (W ox w : Nat) :
    ∀ (n y : Nat) (g : Grid0) (i : Nat),
      (rows0Aux m W ox w y n g).f i =
        if rowsTouch W ox w y n i then m (g.f i) else g.f i := by
  intro n
  induction n with
  | zero => intro y g i; simp [rows0Aux, rowsTouch]
  | succ n ih =>
    intro y g i
    show (rows0Aux m W ox w (y + 1) n (applyRow0 (y * W + ox) (y * W + ox + w) m g)).f i = _
    rw [ih]
    simp only [applyRow0, rowsTouch, Bool.or_eq_true, decide_eq_true_eq]
    by_cases hP : y * W + ox ≤ i ∧ i < y * W + ox + w <;>
      by_cases hR : rowsTouch W ox w (y + 1) n i = true <;>
      simp [hP, hR, hm]

theorem write0_len : ∀ (ns : List Grapheme) (g : Grid0) (pos : Nat),
    (write0 g pos ns).len = g.len := by
  intro ns
  induction ns with
  | nil => intro g pos; rfl
  | cons n ns ih =>
    intro g pos
    by_cases hp : pos < g.len
    · simp only [write0, hp, if_true]
      exact ih _ _
    · simp [write0, hp]

theorem write0_apply : ∀ (ns : List Grapheme) (g : Grid0) (pos i : Nat),
    (write0 g pos ns).f i =
      if pos ≤ i ∧ i < pos + ns.length ∧ i < g.len then
        textCell0 (ns.getD (i - pos) default) (g.f i)
      else g.f i := by
  intro ns
  induction ns with
  | nil =>
    intro g pos i
    rw [if_neg (by rintro ⟨h1, h2, h3⟩; simp at h2; omega)]
    rfl
  | cons n ns ih =>
    intro g pos i
    by_cases hp : pos < g.len
    · simp only [write0, hp, if_true]
      rw [ih]
      dsimp only
      by_cases hip : i = pos
      · subst hip
        rw [if_neg (by rintro ⟨h1, _⟩; omega)]
        have hc2 : i ≤ i ∧ i < i + (n :: ns).length ∧ i < g.len :=
          ⟨le_refl i, by simp, hp⟩
        rw [if_pos hc2]
        simp
      · have hiff : (pos + 1 ≤ i ∧ i < pos + 1 + ns.length ∧ i < g.len) ↔
            (pos ≤ i ∧ i < pos + (n :: ns).length ∧ i < g.len) := by
          simp only [List.length_cons]; omega
        by_cases hc : pos + 1 ≤ i ∧ i < pos + 1 + ns.length ∧ i < g.len
        · rw [if_pos hc, if_pos (hiff.mp hc), if_neg hip]
          have hk : i - pos = (i - (pos + 1)) + 1 := by omega
          rw [hk, List.getD_cons_succ]
        · rw [if_neg hc, if_neg (fun h => hc (hiff.mpr h)), if_neg hip]
    · simp only [write0, hp, if_false]
      rw [if_neg (by rintro ⟨h1, h2, h3⟩; omega)]

/-! ## Idempotence of the per-cell atom semantics -/

/-- The replace/keep discriminator of the text write: the stored
(color, text) key, which is all `draw_text` compares. -/
def slotKey : Option Grapheme → Option (Color × String)
  | none => none
  | some g => some (g.color, g.char)

/-- Run a list of grapheme writes over one slot. -/
def execSlot (L : List Grapheme) (s : Option Grapheme) : Option Grapheme :=
  L.foldl (fun s n => slotStep n s) s

theorem slotKey_slotStep (n : Grapheme) (s : Option Grapheme) :
    slotKey (slotStep n s) = some (n.color, n.char) := by
  cases s with
  | none => rfl
  | some p =>
    simp only [slotStep]
    split
    · rfl
    · next h =>
      push_neg at h
      simp [slotKey, h.1, h.2]

theorem slotStep_keep (n : Grapheme) (s : Option Grapheme)
    (h : slotKey s = some (n.color, n.char)) : slotStep n s = s := by
  cases s with
  | none => simp [slotKey] at h
  | some p =>
    simp only [slotKey, Option.some.injEq, Prod.mk.injEq] at h
    simp [slotStep, h.1, h.2]

theorem slotStep_replace (n : Grapheme) (s : Option Grapheme)
    (h : slotKey s ≠ some (n.color, n.char)) : slotStep n s = some n := by
  cases s with
  | none => rfl
  | some p =>
    by_cases hc : p.color ≠ n.color ∨ p.char ≠ n.char
    · simp [slotStep, hc]
    · exfalso
      push_neg at hc
      exact h (by simp [slotKey, hc.1, hc.2])

theorem execSlot_aux : ∀ (L : List Grapheme) (v w : Option Grapheme),
    (w = v ∨ w = execSlot L v ∨
      (slotKey w = slotKey v ∧ slotKey (execSlot L v) ≠ slotKey v)) →
    execSlot L w = execSlot L v := by
  intro L
  induction L with
  | nil =>
    intro v w h
    rcases h with h | h | ⟨_, h2⟩
    · rw [h]
    · exact h
    · exact absurd rfl h2
  | cons n L ih =>
    intro v w h
    show execSlot L (slotStep n w) = execSlot L (slotStep n v)
    rcases h with h | h | ⟨h1, h2⟩
    · rw [h]
    · by_cases hk : slotKey (execSlot L (slotStep n v)) = some (n.color, n.char)
      · apply ih
        refine Or.inr (Or.inl ?_)
        rw [h]
        exact slotStep_keep n _ hk
      · apply ih
        refine Or.inr (Or.inr ⟨?_, ?_⟩)
        · rw [slotKey_slotStep, slotKey_slotStep]
        · rw [slotKey_slotStep]
          exact hk
    · by_cases hv : slotKey v = some (n.color, n.char)
      · rw [slotStep_keep n w (h1.trans hv), slotStep_keep n v hv]
        have h2' : slotKey (execSlot L (slotStep n v)) ≠ slotKey v := h2
        rw [slotStep_keep n v hv] at h2'
        exact ih v w (Or.inr (Or.inr ⟨h1, h2'⟩))
      · rw [slotStep_replace n w (h1 ▸ hv), slotStep_replace n v hv]

theorem execSlot_idem (L : List Grapheme) (v : Option Grapheme) :
    execSlot L (execSlot L v) = execSlot L v :=
  execSlot_aux L v _ (Or.inr (Or.inl rfl))

theorem Atom.app_cursor (x : Cell0) (a : Atom) : (Atom.app x a).cursor = x.cursor := by
  cases a <;> rfl

theorem execAtoms_cursor (L : List Atom) : ∀ x : Cell0, (execAtoms L x).cursor = x.cursor := by
  induction L with
  | nil => intro _; rfl
  | cons a L ih =>
    intro x
    rw [show execAtoms (a :: L) x = execAtoms L (Atom.app x a) from rfl, ih, Atom.app_cursor]

theorem fillCell0_eq_of_cursor (k : Color) (x y : Cell0) (h : x.cursor = y.cursor) :
    fillCell0 k x = fillCell0 k y := by
  cases x; cases y; simp_all [fillCell0]

theorem execAtoms_fill_mem (k : Color) : ∀ (L : List Atom), Atom.fill k ∈ L →
    ∀ x y : Cell0, x.cursor = y.cursor → execAtoms L x = execAtoms L y := by
  intro L
  induction L with
  | nil => intro h; simp at h
  | cons a L ih =>
    intro hmem x y hcur
    show execAtoms L (Atom.app x a) = execAtoms L (Atom.app y a)
    cases a with
    | fill c =>
      rw [show Atom.app x (.fill c) = fillCell0 c x from rfl,
        show Atom.app y (.fill c) = fillCell0 c y from rfl,
        fillCell0_eq_of_cursor c x y hcur]
    | text n =>
      have hmem' : Atom.fill k ∈ L := by
        rcases List.mem_cons.mp hmem with h | h
        · exact absurd h (by simp)
        · exact h
      refine ih hmem' _ _ ?_
      rw [show Atom.app x (.text n) = textCell0 n x from rfl,
        show Atom.app y (.text n) = textCell0 n y from rfl,
        textCell0_cursor, textCell0_cursor, hcur]

/-- The grapheme carried by a text atom. -/
def Atom.payload : Atom → Grapheme
  | .fill _ => default
  | .text n => n

theorem execAtoms_texts : ∀ (L : List Atom), (∀ a ∈ L, ∃ n, a = Atom.text n) →
    ∀ x : Cell0,
      execAtoms L x = { x with grapheme := execSlot (L.map Atom.payload) x.grapheme } := by
  intro L
  induction L with
  | nil => intro _ x; cases x; rfl
  | cons a L ih =>
    intro h x
    obtain ⟨n, rfl⟩ := h a (List.mem_cons_self a L)
    have hL : ∀ b ∈ L, ∃ m, b = Atom.text m := fun b hb => h b (List.mem_cons_of_mem _ hb)
    show execAtoms L (textCell0 n x) = _
    rw [ih hL (textCell0 n x)]
    cases x; rfl

theorem execAtoms_idem (L : List Atom) (x : Cell0) :
    execAtoms L (execAtoms L x) = execAtoms L x := by
  by_cases hf : ∃ k, Atom.fill k ∈ L
  · obtain ⟨k, hk⟩ := hf
    exact execAtoms_fill_mem k L hk _ _ (execAtoms_cursor L x)
  · have ht : ∀ a ∈ L, ∃ n, a = Atom.text n := by
      intro a ha
      cases a with
      | fill c => exact absurd ⟨c, ha⟩ hf
      | text n => exact ⟨n, rfl⟩
    obtain ⟨cur, gr, q, bg, fgc, cp⟩ := x
    rw [execAtoms_texts L ht, execAtoms_texts L ht]
    simp [execSlot_idem]

/-! ## Factorization of the erased paint phase into per-cell atoms -/

theorem execAtoms_append (L1 L2 : List Atom) (c : Cell0) :
    execAtoms (L1 ++ L2) c = execAtoms L2 (execAtoms L1 c) := by
  simp [execAtoms]

theorem elOp0_apply (e : (Nat × Nat) × Element) (W : Nat) (g : Grid0) (i : Nat) :
    (elText0 e W (elFill0 e W g)).f i = execAtoms (elAtoms e W g.len i) (g.f i) := by
  have hlen : (elFill0 e W g).len = g.len :=
    rows0Aux_len _ W e.1.1 (textWidth e.2.text) 1 e.1.2 g
  have hfi : (elFill0 e W g).f i =
      if rowsTouch W e.1.1 (textWidth e.2.text) e.1.2 1 i then
        fillCell0 e.2.background (g.f i)
      else g.f i :=
    rows0Aux_apply (fillCell0 e.2.background) (fillCell0_idem e.2.background)
      W e.1.1 (textWidth e.2.text) 1 e.1.2 g i
  show (write0 (elFill0 e W g)
      (min (elFill0 e W g).len
        (i32ToUsize (startIndexRaw (wrap32 (2 * (e.1.1 : Int))) (e.1.2 : Int) W)))
      (flattenText e.2.text e.2.foreground)).f i = _
  rw [write0_apply, hlen, hfi]
  simp only [elAtoms]
  rw [execAtoms_append]
  generalize (min g.len
    (i32ToUsize (startIndexRaw (wrap32 (2 * (e.1.1 : Int))) (e.1.2 : Int) W))) = start
  generalize flattenText e.2.text e.2.foreground = ns
  by_cases h1 : rowsTouch W e.1.1 (textWidth e.2.text) e.1.2 1 i <;>
    by_cases h2 : start ≤ i ∧ i < start + ns.length ∧ i < g.len <;>
    simp [fillAtomsAt, textAtomsAt, h1, h2, execAtoms, Atom.app]

theorem elText0_len (e : (Nat × Nat) × Element) (W : Nat) (g : Grid0) :
    (elText0 e W g).len = g.len :=
  write0_len _ _ _

theorem elFill0_len (e : (Nat × Nat) × Element) (W : Nat) (g : Grid0) :
    (elFill0 e W g).len = g.len :=
  rows0Aux_len _ W e.1.1 (textWidth e.2.text) 1 e.1.2 g

theorem paint0_len : ∀ (els : List ((Nat × Nat) × Element)) (W : Nat) (g : Grid0),
    (paint0 els W g).len = g.len := by
  intro els
  induction els with
  | nil => intro W g; rfl
  | cons e els ih =>
    intro W g
    show (paint0 els W (elText0 e W (elFill0 e W g))).len = g.len
    rw [ih, elText0_len, elFill0_len]

theorem paint0_apply : ∀ (els : List ((Nat × Nat) × Element)) (W : Nat)
    (g : Grid0) (i : Nat),
    (paint0 els W g).f i = execAtoms (paintAtoms els W g.len i) (g.f i) := by
  intro els
  induction els with
  | nil => intro W g i; rfl
  | cons e els ih =>
    intro W g i
    show (paint0 els W (elText0 e W (elFill0 e W g))).f i = _
    rw [ih]
    have hlen2 : (elText0 e W (elFill0 e W g)).len = g.len := by
      rw [elText0_len, elFill0_len]
    rw [hlen2, elOp0_apply]
    show _ = execAtoms (elAtoms e W g.len i ++ paintAtoms els W g.len i) (g.f i)
    rw [execAtoms_append]

theorem paint0_idem (els : List ((Nat × Nat) × Element)) (W : Nat)
    (g : Grid0) (i : Nat) :
    (paint0 els W (paint0 els W g)).f i = (paint0 els W g).f i := by
  rw [paint0_apply els W (paint0 els W g) i, paint0_len, paint0_apply els W g i]
  exact execAtoms_idem _ _

theorem paint0_cursor (els : List ((Nat × Nat) × Element)) (W : Nat)
    (g : Grid0) (i : Nat) :
    ((paint0 els W g).f i).cursor = (g.f i).cursor := by
  rw [paint0_apply, execAtoms_cursor]

/-! ## The full paint phase projects onto the erased one -/

theorem fillCell_erase (color : Color) (c : Cell) :
    (fillCell color c).erase = fillCell0 color c.erase := rfl

theorem textStep_erase (c : Cell) (n : Grapheme) (nid : Nat) :
    ((textStep c n nid).1).erase = textCell0 n c.erase := by
  obtain ⟨cur, gr, q, bg, fgc, cp⟩ := c
  cases gr with
  | none => rfl
  | some p =>
    by_cases h : p.val.color ≠ n.color ∨ p.val.char ≠ n.char <;>
      simp [textStep, textCell0, slotStep, Cell.erase, h]

theorem writeSeq_erase : ∀ (ns : List Grapheme) (g : Grid) (pos nid : Nat),
    ((writeSeq g pos nid ns).1.len = g.len) ∧
    (∀ i, ((writeSeq g pos nid ns).1.f i).1 = (g.f i).1) ∧
    ((writeSeq g pos nid ns).1.curs = write0 g.curs pos ns) := by
  intro ns
  induction ns with
  | nil => intro g pos nid; exact ⟨rfl, fun _ => rfl, rfl⟩
  | cons n ns ih =>
    intro g pos nid
    by_cases hp : pos < g.len
    · have hstep : writeSeq g pos nid (n :: ns) =
          writeSeq (g.set pos ((g.f pos).1, (textStep (g.f pos).2 n nid).1)) (pos + 1)
            (textStep (g.f pos).2 n nid).2 ns := by
        simp [writeSeq, hp]
      rw [hstep]
      obtain ⟨ihl, ihp, ihc⟩ :=
        ih (g.set pos ((g.f pos).1, (textStep (g.f pos).2 n nid).1)) (pos + 1)
          (textStep (g.f pos).2 n nid).2
      refine ⟨ihl, ?_, ?_⟩
      · intro i
        rw [ihp i]
        show (if i = pos then _ else g.f i).1 = (g.f i).1
        split
        · next hip => subst hip; rfl
        · rfl
      · rw [ihc]
        have hset : (g.set pos ((g.f pos).1, (textStep (g.f pos).2 n nid).1)).curs =
            ⟨g.curs.len, fun j =>
              if j = pos then textCell0 n (g.curs.f pos) else g.curs.f j⟩ := by
          refine grid0_ext_of _ _ rfl ?_
          intro j
          show (if j = pos then _ else g.f j).2.erase = _
          by_cases hj : j = pos
          · subst hj
            simp only [if_pos rfl]
            exact textStep_erase (g.f j).2 n nid
          · simp [hj, Grid.curs]
        rw [hset]
        have hp0 : pos < g.curs.len := hp
        show write0 _ (pos + 1) ns = write0 g.curs pos (n :: ns)
        rw [show write0 g.curs pos (n :: ns) =
          write0 ⟨g.curs.len, fun j =>
            if j = pos then textCell0 n (g.curs.f pos) else g.curs.f j⟩ (pos + 1) ns by
            simp [write0, hp0]]
    · have h1 : writeSeq g pos nid (n :: ns) = (g, nid) := by simp [writeSeq, hp]
      have hp0 : ¬ pos < g.curs.len := hp
      have h2 : write0 g.curs pos (n :: ns) = g.curs := by simp [write0, hp0]
      rw [h1, h2]
      exact ⟨rfl, fun _ => rfl, rfl⟩

theorem applyRowCur_some (l r : Nat) (m : Cell → Cell) (m0 : Cell0 → Cell0)
    (hm : ∀ c, (m c).erase = m0 c.erase) (g g' : Grid)
    (h : applyRowCur l r m g = some g') :
    g'.len = g.len ∧ (∀ i, (g'.f i).1 = (g.f i).1) ∧
      g'.curs = applyRow0 l r m0 g.curs := by
  by_cases hc : l ≤ r ∧ r ≤ g.len
  · rw [applyRowCur, if_pos hc, Option.some.injEq] at h
    subst h
    refine ⟨rfl, ?_, ?_⟩
    · intro i
      show (if l ≤ i ∧ i < r then _ else g.f i).1 = (g.f i).1
      split
      · rfl
      · rfl
    · refine grid0_ext_of _ _ rfl ?_
      intro i
      show (if l ≤ i ∧ i < r then ((g.f i).1, m (g.f i).2) else g.f i).2.erase = _
      by_cases hi : l ≤ i ∧ i < r
      · simp only [if_pos hi, applyRow0]
        exact hm (g.f i).2
      · simp [hi, applyRow0, Grid.curs]
  · rw [applyRowCur, if_neg hc] at h
    exact absurd h (by simp)

theorem drawRowsAux_some (m : Cell → Cell) (m0 : Cell0 → Cell0)
    (hm : ∀ c, (m c).erase = m0 c.erase) (W ox w : Nat) :
    ∀ (n y : Nat) (g g' : Grid), drawRowsAux m W ox w y n g = some g' →
      g'.len = g.len ∧ (∀ i, (g'.f i).1 = (g.f i).1) ∧
        g'.curs = rows0Aux m0 W ox w y n g.curs := by
  intro n
  induction n with
  | zero =>
    intro y g g' h
    rw [drawRowsAux, Option.some.injEq] at h
    subst h
    exact ⟨rfl, fun _ => rfl, rfl⟩
  | succ n ih =>
    intro y g g' h
    rw [drawRowsAux] at h
    obtain ⟨gmid, h1, h2⟩ := Option.bind_eq_some.mp h
    obtain ⟨hl1, hp1, hc1⟩ := applyRowCur_some _ _ m m0 hm g gmid h1
    obtain ⟨hl2, hp2, hc2⟩ := ih (y + 1) gmid g' h2
    refine ⟨hl2.trans hl1, fun i => (hp2 i).trans (hp1 i), ?_⟩
    rw [hc2, hc1]
    rfl

theorem drawText_place (text : List GCluster) (origin : Int × Int) (size : Size)
    (color : Color) (st : RState) (hsize : ¬(2 < size.width ∧ 2 < size.height)) :
    drawText text origin size color st = some (drawTextPlace text origin color st) := by
  simp [drawText, hsize]

theorem drawTextPlace_curs (text : List GCluster) (origin : Int × Int)
    (color : Color) (st : RState) :
    (drawTextPlace text origin color st).size = st.size ∧
    (drawTextPlace text origin color st).grid.len = st.grid.len ∧
    (∀ i, ((drawTextPlace text origin color st).grid.f i).1 = (st.grid.f i).1) ∧
    (drawTextPlace text origin color st).grid.curs =
      text0 text origin.1 origin.2 color st.size.width st.grid.curs := by
  obtain ⟨hl, hp, hc⟩ := writeSeq_erase (flattenText text color) st.grid
    (min st.grid.len (i32ToUsize (startIndexRaw origin.1 origin.2 st.size.width)))
    st.nextId
  exact ⟨rfl, hl, hp, hc⟩

theorem renderPaintEl_some (st st' : RState) (e : (Nat × Nat) × Element)
    (h : renderPaintEl st e = some st') :
    st'.size = st.size ∧ st'.grid.len = st.grid.len ∧
    (∀ i, (st'.grid.f i).1 = (st.grid.f i).1) ∧
    st'.grid.curs = elText0 e st.size.width (elFill0 e st.size.width st.grid.curs) := by
  rw [renderPaintEl] at h
  obtain ⟨g1, hf, hd⟩ := Option.bind_eq_some.mp h
  rw [drawText_place _ _ _ _ _ (by decide), Option.some.injEq] at hd
  subst hd
  obtain ⟨hl1, hp1, hc1⟩ := drawRowsAux_some (fillCell e.2.background)
    (fillCell0 e.2.background) (fillCell_erase e.2.background)
    st.size.width e.1.1 (textWidth e.2.text) 1 e.1.2 st.grid g1 hf
  obtain ⟨hsz2, hl2, hp2, hc2⟩ := drawTextPlace_curs e.2.text
    (wrap32 (2 * (e.1.1 : Int)), (e.1.2 : Int)) e.2.foreground { st with grid := g1 }
  refine ⟨hsz2, hl2.trans hl1, fun i => (hp2 i).trans (hp1 i), ?_⟩
  rw [hc2]
  show text0 e.2.text (wrap32 (2 * (e.1.1 : Int))) (e.1.2 : Int) e.2.foreground
    st.size.width g1.curs = _
  rw [hc1]
  rfl

theorem renderPaint_some : ∀ (els : List ((Nat × Nat) × Element)) (st st' : RState),
    renderPaint els st = some st' →
    st'.size = st.size ∧ st'.grid.len = st.grid.len ∧
    (∀ i, (st'.grid.f i).1 = (st.grid.f i).1) ∧
    st'.grid.curs = paint0 els st.size.width st.grid.curs := by
  intro els
  induction els with
  | nil =>
    intro st st' h
    rw [renderPaint, Option.some.injEq] at h
    subst h
    exact ⟨rfl, rfl, fun _ => rfl, rfl⟩
  | cons e els ih =>
    intro st st' h
    rw [renderPaint] at h
    obtain ⟨stm, h1, h2⟩ := Option.bind_eq_some.mp h
    obtain ⟨hsz1, hl1, hp1, hc1⟩ := renderPaintEl_some st stm e h1
    obtain ⟨hsz2, hl2, hp2, hc2⟩ := ih stm st' h2
    refine ⟨hsz2.trans hsz1, hl2.trans hl1, fun i => (hp2 i).trans (hp1 i), ?_⟩
    rw [hc2, hsz1, hc1]
    rfl

/-! ## Diff pass lemmas -/

theorem diffGrid_len (g : Grid) : (diffGrid g).len = g.len := rfl

theorem diffGrid_cur (g : Grid) (i : Nat) : ((diffGrid g).f i).2 = (g.f i).2 := by
  show (if i < g.len ∧ (g.f i).1.erase ≠ (g.f i).2.erase then _ else g.f i).2 = _
  split
  · rfl
  · rfl

theorem diffGrid_pairs (g : Grid)
    (hcur : ∀ i, i < g.len → ((g.f i).1).cursor = ((g.f i).2).cursor) :
    ∀ i, i < g.len → ((diffGrid g).f i).1.erase = ((diffGrid g).f i).2.erase := by
  intro i hi
  show (if i < g.len ∧ (g.f i).1.erase ≠ (g.f i).2.erase then _ else g.f i).1.erase =
    (if i < g.len ∧ (g.f i).1.erase ≠ (g.f i).2.erase then _ else g.f i).2.erase
  by_cases hne : (g.f i).1.erase ≠ (g.f i).2.erase
  · rw [if_pos ⟨hi, hne⟩]
    show ({ (g.f i).2 with cursor := (g.f i).1.cursor }).erase = (g.f i).2.erase
    simp [Cell.erase, hcur i hi]
  · rw [if_neg (fun hcon => hne hcon.2)]
    exact not_not.mp hne

theorem paintedCells_nil (g : Grid)
    (h : ∀ i, i < g.len → (g.f i).1.erase = (g.f i).2.erase) :
    paintedCells g = [] := by
  apply List.filterMap_eq_nil_iff.mpr
  intro i hi
  rw [List.mem_range] at hi
  simp [h i hi]

/-- After a completed `render`, every pair of the grid is structurally equal
(previous mirrors current), provided the grid satisfies the cursor-pairing
invariant that `set_size` establishes. Shared backbone of the render
claims. -/
theorem renderStep_pairs (els : List ((Nat × Nat) × Element)) (st st' : RState)
    (out : List Cell) (h : renderStep els st = some (st', out))
    (hcur : ∀ i, i < st.grid.len → ((st.grid.f i).1).cursor = ((st.grid.f i).2).cursor) :
    st'.grid.len = st.grid.len ∧
    ∀ i, i < st'.grid.len → (st'.grid.f i).1.erase = (st'.grid.f i).2.erase := by
  rw [renderStep] at h
  obtain ⟨st1, hp, heq⟩ := Option.map_eq_some'.mp h
  have hst' : st' = { st1 with grid := diffGrid st1.grid } :=
    (congrArg Prod.fst heq).symm
  obtain ⟨hsz, hlen, hprev, hcurs⟩ := renderPaint_some els st st1 hp
  have hcur1 : ∀ i, i < st1.grid.len →
      ((st1.grid.f i).1).cursor = ((st1.grid.f i).2).cursor := by
    intro i hi
    have hi0 : i < st.grid.len := hlen ▸ hi
    have hc2 : ((st1.grid.f i).2).cursor = ((st.grid.f i).2).cursor := by
      have h' : (st1.grid.curs.f i).cursor =
          ((paint0 els st.size.width st.grid.curs).f i).cursor :=
        congrArg (fun g0 => (g0.f i).cursor) hcurs
      rw [paint0_cursor] at h'
      exact h'
    rw [hprev i, hc2]
    exact hcur i hi0
  subst hst'
  refine ⟨hlen, ?_⟩
  intro i hi
  exact diffGrid_pairs st1.grid hcur1 i hi

/-- C10: whenever `render()` returns successfully, every `(previous,
current)` pair of the grid is structurally equal — position, grapheme
content, quadrant, background, foreground and codepoint all agree — so the
previous buffer exactly mirrors the frame just painted. The hypothesis
`hcur` is the cursor-pairing invariant that `set_size` establishes for
every grid it builds and that no operation disturbs. -/
theorem render_syncs_previous_buffer (els : List ((Nat × Nat) × Element))
    (st st' : RState) (out : List Cell)
    (hcur : ∀ i, i < st.grid.len → ((st.grid.f i).1).cursor = ((st.grid.f i).2).cursor)
    (h : renderStep els st = some (st', out)) :
    ∀ i, i < st'.grid.len → (st'.grid.f i).1.erase = (st'.grid.f i).2.erase :=
  (renderStep_pairs els st st' out h hcur).2

/-- C1: after a completed `render()`, a second `render()` in which the
navigation collaborator returns the same elements and no cell was mutated
in between forwards no cell to the painter: for every grid position the
current cell is structurally equal to the previous cell, so the diff pass
skips everything. `hcur` is the cursor-pairing invariant established by
`set_size`. -/
theorem render_second_pass_paints_nothing (els : List ((Nat × Nat) × Element))
    (st st1 st2 : RState) (out1 out2 : List Cell)
    (hcur : ∀ i, i < st.grid.len → ((st.grid.f i).1).cursor = ((st.grid.f i).2).cursor)
    (h1 : renderStep els st = some (st1, out1))
    (h2 : renderStep els st1 = some (st2, out2)) :
    out2 = [] := by
  rw [renderStep] at h2
  obtain ⟨stp2, hp2, heq2⟩ := Option.map_eq_some'.mp h2
  have hout2 : out2 = paintedCells stp2.grid := (congrArg Prod.snd heq2).symm
  obtain ⟨hsz2, hlen2, hprev2, hcurs2⟩ := renderPaint_some els st1 stp2 hp2
  have h1' := h1
  rw [renderStep] at h1'
  obtain ⟨stp1, hp1, heq1⟩ := Option.map_eq_some'.mp h1'
  have hst1 : st1 = { stp1 with grid := diffGrid stp1.grid } :=
    (congrArg Prod.fst heq1).symm
  obtain ⟨hsz1, hlen1, hprev1, hcurs1⟩ := renderPaint_some els st stp1 hp1
  have hst1sz : st1.size = st.size := by rw [hst1]; exact hsz1
  have hst1curs : st1.grid.curs = paint0 els st.size.width st.grid.curs := by
    rw [hst1]
    refine grid0_ext_of _ _ ?_ ?_
    · show (diffGrid stp1.grid).len = (paint0 els st.size.width st.grid.curs).len
      rw [diffGrid_len, hlen1, paint0_len]
      rfl
    · intro i
      show ((diffGrid stp1.grid).f i).2.erase =
        (paint0 els st.size.width st.grid.curs).f i
      rw [diffGrid_cur]
      exact congrArg (fun g0 => g0.f i) hcurs1
  obtain ⟨hlen1', hpairs1⟩ := renderStep_pairs els st st1 out1 h1 hcur
  have hmain : ∀ i, i < stp2.grid.len →
      (stp2.grid.f i).1.erase = (stp2.grid.f i).2.erase := by
    intro i hi
    have hi1 : i < st1.grid.len := hlen2 ▸ hi
    have e1 : (stp2.grid.f i).1.erase = (st1.grid.f i).1.erase :=
      congrArg Cell.erase (hprev2 i)
    have e2 : (stp2.grid.f i).2.erase = (st1.grid.f i).2.erase := by
      have hc : stp2.grid.curs.f i = st1.grid.curs.f i := by
        rw [hcurs2, hst1sz, hst1curs]
        exact paint0_idem els st.size.width st.grid.curs i
      exact hc
    exact e1.trans ((hpairs1 i hi1).trans e2.symm)
  rw [hout2]
  exact paintedCells_nil _ hmain

/-! ## Concrete demonstration runs -/

/-- A 3×2 renderer state as produced by `set_size`, no accelerator. -/
def demoState : RState :=
  setSize ⟨3, 2⟩
    { size := ⟨0, 0⟩, grid := ⟨0, fun _ => (Cell.new 0 0, Cell.new 0 0)⟩,
      nextId := 0, ftty := none }

/-- One navigation element: the letter `A` on a dark background. -/
def demoEls : List ((Nat × Nat) × Element) :=
  [((0, 0), ⟨[⟨"A", 1⟩], ⟨10, 20, 30⟩, ⟨200, 200, 200⟩⟩)]

/-- First frame. -/
def demoRender1 : RState × List Cell :=
  (renderStep demoEls demoState).getD (demoState, [])

/-- Second frame over the first frame's state. -/
def demoRender2 : RState × List Cell :=
  (renderStep demoEls demoRender1.1).getD (demoState, [])

theorem render_syncs_previous_buffer_witness :
    (demoRender1.1.grid.f 0).1.erase = (demoRender1.1.grid.f 0).2.erase :=
  render_syncs_previous_buffer demoEls demoState demoRender1.1 demoRender1.2
    (by decide) rfl 0 (by decide)

theorem render_second_pass_paints_nothing_witness : demoRender2.2 = [] :=
  render_second_pass_paints_nothing demoEls demoState demoRender1.1 demoRender2.1
    demoRender1.2 demoRender2.2 (by decide) rfl rfl

/-! ## Text compositor lemmas -/

theorem Grid.set_len (g : Grid) (i : Nat) (c : Cell × Cell) :
    (g.set i c).len = g.len := rfl

theorem Grid.f_set_same (g : Grid) (i : Nat) (c : Cell × Cell) :
    (g.set i c).f i = c := by simp [Grid.set]

theorem Grid.f_set_other (g : Grid) (i j : Nat) (c : Cell × Cell) (h : j ≠ i) :
    (g.set i c).f j = g.f j := by simp [Grid.set, h]

theorem Grid.set_self (g : Grid) (i : Nat) : g.set i (g.f i) = g := by
  refine grid_ext_of _ _ rfl ?_
  intro j
  by_cases hj : j = i
  · subst hj; simp [Grid.set]
  · simp [Grid.set, hj]

/-- Writing the same grapheme again over a just-written cell keeps the
stored instance and allocates nothing. -/
theorem textStep_second (c : Cell) (n : Grapheme) (nid nid' : Nat) :
    textStep (textStep c n nid).1 n nid' = ((textStep c n nid).1, nid') := by
  obtain ⟨cur, gr, q, bg, fgc, cp⟩ := c
  cases gr with
  | none => simp [textStep]
  | some p =>
    by_cases h : p.val.color ≠ n.color ∨ p.val.char ≠ n.char
    · simp [textStep, h]
    · push_neg at h
      simp [textStep, h.1, h.2]

/-- A cell holding no grapheme of the incoming color and text gets a fresh
`Rc` allocation. -/
theorem textStep_of_free (c : Cell) (n : Grapheme) (nid : Nat)
    (h : ∀ p : RcGrapheme, c.grapheme = some p →
      p.val.color ≠ n.color ∨ p.val.char ≠ n.char) :
    textStep c n nid = ({ c with grapheme := some ⟨nid, n⟩ }, nid + 1) := by
  obtain ⟨cur, gr, q, bg, fgc, cp⟩ := c
  cases gr with
  | none => rfl
  | some p => simp [textStep, h p rfl]

theorem writeSeq_window : ∀ (ns : List Grapheme) (g : Grid) (pos nid i : Nat),
    (i < pos ∨ pos + ns.length ≤ i) → (writeSeq g pos nid ns).1.f i = g.f i := by
  intro ns
  induction ns with
  | nil => intro g pos nid i _; rfl
  | cons n ns ih =>
    intro g pos nid i hi
    by_cases hp : pos < g.len
    · have hstep : writeSeq g pos nid (n :: ns) =
          writeSeq (g.set pos ((g.f pos).1, (textStep (g.f pos).2 n nid).1)) (pos + 1)
            (textStep (g.f pos).2 n nid).2 ns := by
        simp [writeSeq, hp]
      have hlen : (n :: ns).length = ns.length + 1 := List.length_cons n ns
      have hi' : i < pos + 1 ∨ (pos + 1) + ns.length ≤ i := by
        rcases hi with h | h
        · exact Or.inl (by omega)
        · right; omega
      have hne : i ≠ pos := by
        rcases hi with h | h
        · omega
        · omega
      rw [hstep, ih _ (pos + 1) _ i hi']
      exact Grid.f_set_other g pos i _ hne
    · simp [writeSeq, hp]

theorem writeSeq_len (ns : List Grapheme) (g : Grid) (pos nid : Nat) :
    (writeSeq g pos nid ns).1.len = g.len :=
  (writeSeq_erase ns g pos nid).1

/-- Replaying the same grapheme sequence at the same position leaves the
grid and the allocation counter exactly as they were: every cell keeps its
stored instance. -/
theorem writeSeq_idem : ∀ (ns : List Grapheme) (g : Grid) (pos nid : Nat),
    writeSeq (writeSeq g pos nid ns).1 pos (writeSeq g pos nid ns).2 ns =
      writeSeq g pos nid ns := by
  intro ns
  induction ns with
  | nil => intro g pos nid; rfl
  | cons n ns ih =>
    intro g pos nid
    by_cases hp : pos < g.len
    · have hstep : writeSeq g pos nid (n :: ns) =
          writeSeq (g.set pos ((g.f pos).1, (textStep (g.f pos).2 n nid).1)) (pos + 1)
            (textStep (g.f pos).2 n nid).2 ns := by
        simp [writeSeq, hp]
      rw [hstep]
      set c1 := (textStep (g.f pos).2 n nid).1 with hc1
      set nid1 := (textStep (g.f pos).2 n nid).2 with hnid1
      set R := writeSeq (g.set pos ((g.f pos).1, c1)) (pos + 1) nid1 ns with hR
      have hp' : pos < R.1.len := by
        rw [hR, writeSeq_len]
        exact hp
      have hRf : R.1.f pos = ((g.f pos).1, c1) := by
        rw [hR, writeSeq_window _ _ _ _ pos (Or.inl (by omega))]
        exact Grid.f_set_same _ _ _
      have hstep2 : writeSeq R.1 pos R.2 (n :: ns) =
          writeSeq (R.1.set pos ((R.1.f pos).1, (textStep (R.1.f pos).2 n R.2).1)) (pos + 1)
            (textStep (R.1.f pos).2 n R.2).2 ns := by
        simp [writeSeq, hp']
      rw [hstep2]
      have h1 : textStep (R.1.f pos).2 n R.2 = ((R.1.f pos).2, R.2) := by
        rw [hRf]
        show textStep c1 n R.2 = (c1, R.2)
        rw [hc1]
        exact textStep_second (g.f pos).2 n nid R.2
      rw [h1]
      show writeSeq (R.1.set pos (R.1.f pos)) (pos + 1) R.2 ns = R
      rw [Grid.set_self]
      exact ih _ _ _
    · simp [writeSeq, hp]

theorem drawTextPlace_idem (text : List GCluster) (origin : Int × Int)
    (color : Color) (st : RState) :
    drawTextPlace text origin color (drawTextPlace text origin color st) =
      drawTextPlace text origin color st := by
  obtain ⟨sz, grid, nid, ft⟩ := st
  have hlen : ((writeSeq grid
      (min grid.len (i32ToUsize (startIndexRaw origin.1 origin.2 sz.width))) nid
      (flattenText text color)).1).len = grid.len := writeSeq_len _ _ _ _
  simp only [drawTextPlace, hlen]
  rw [writeSeq_idem]

/-- C6: in place mode, a cell's stored grapheme is replaced only when the
incoming text or color differs, so repeating the very same `draw_text`
leaves the state exactly as it was — every stored `Rc<Grapheme>` keeps its
identity and the allocation counter does not move. -/
theorem draw_text_grapheme_identity_stable (text : List GCluster)
    (origin : Int × Int) (size : Size) (color : Color) (st st1 : RState)
    (hsize : ¬(2 < size.width ∧ 2 < size.height))
    (h : drawText text origin size color st = some st1) :
    drawText text origin size color st1 = some st1 := by
  rw [drawText_place _ _ _ _ _ hsize] at h ⊢
  rw [Option.some.injEq] at h
  subst h
  rw [drawTextPlace_idem]

/-- First frame of the C6 demonstration. -/
def c6Draw1 : RState :=
  (drawText [⟨"B", 1⟩] (0, 0) ⟨0, 0⟩ ⟨9, 9, 9⟩ demoState).getD demoState

theorem draw_text_grapheme_identity_stable_witness :
    drawText [⟨"B", 1⟩] (0, 0) ⟨0, 0⟩ ⟨9, 9, 9⟩ c6Draw1 = some c6Draw1 :=
  draw_text_grapheme_identity_stable [⟨"B", 1⟩] (0, 0) ⟨0, 0⟩ ⟨9, 9, 9⟩
    demoState c6Draw1 (by decide) rfl

/-- Two fresh consecutive writes, the shape `draw_text` produces for one
double-width cluster over free cells. -/
theorem writeSeq_two (g : Grid) (pos nid : Nat) (n0 n1 : Grapheme)
    (hroom : pos + 2 ≤ g.len)
    (hf0 : ∀ p : RcGrapheme, (g.f pos).2.grapheme = some p →
      p.val.color ≠ n0.color ∨ p.val.char ≠ n0.char)
    (hf1 : ∀ p : RcGrapheme, (g.f (pos + 1)).2.grapheme = some p →
      p.val.color ≠ n1.color ∨ p.val.char ≠ n1.char) :
    writeSeq g pos nid [n0, n1] =
      ((g.set pos ((g.f pos).1, { (g.f pos).2 with grapheme := some ⟨nid, n0⟩ })).set
          (pos + 1)
          ((g.f (pos + 1)).1,
            { (g.f (pos + 1)).2 with grapheme := some ⟨nid + 1, n1⟩ }),
        nid + 2) := by
  have hp0 : pos < g.len := by omega
  have hstep1 : writeSeq g pos nid [n0, n1] =
      writeSeq (g.set pos ((g.f pos).1, (textStep (g.f pos).2 n0 nid).1)) (pos + 1)
        (textStep (g.f pos).2 n0 nid).2 [n1] := by
    simp [writeSeq, hp0]
  rw [hstep1, textStep_of_free _ _ _ hf0]
  show writeSeq (g.set pos ((g.f pos).1,
      { (g.f pos).2 with grapheme := some ⟨nid, n0⟩ })) (pos + 1) (nid + 1) [n1] = _
  set A := ((g.f pos).1, { (g.f pos).2 with grapheme := some (⟨nid, n0⟩ : RcGrapheme) })
    with hA
  have hp1 : pos + 1 < (g.set pos A).len := by
    rw [Grid.set_len]; omega
  have hga : (g.set pos A).f (pos + 1) = g.f (pos + 1) :=
    Grid.f_set_other g pos (pos + 1) A (by omega)
  have hstep2 : writeSeq (g.set pos A) (pos + 1) (nid + 1) [n1] =
      writeSeq ((g.set pos A).set (pos + 1)
          (((g.set pos A).f (pos + 1)).1,
            (textStep ((g.set pos A).f (pos + 1)).2 n1 (nid + 1)).1))
        (pos + 2) (textStep ((g.set pos A).f (pos + 1)).2 n1 (nid + 1)).2 [] := by
    simp [writeSeq, hp1]
  rw [hstep2, hga, textStep_of_free _ _ _ hf1]
  rfl

/-- C7: in place mode, a string that is one double-width grapheme cluster,
drawn starting inside the grid onto two cells holding no grapheme of the
same text and color, writes exactly the two consecutive cells at the start
index: each receives a fresh `Rc` grapheme carrying the cluster text,
width 2 and the given color, with sub-cell index 0 in the first cell and 1
in the second; no other cell is modified. -/
theorem draw_text_double_width (c : GCluster) (origin : Int × Int) (size : Size)
    (color : Color) (st st' : RState) (start : Nat)
    (hsize : ¬(2 < size.width ∧ 2 < size.height))
    (hw : c.width = 2)
    (hs : start = min st.grid.len
      (i32ToUsize (startIndexRaw origin.1 origin.2 st.size.width)))
    (hroom : start + 2 ≤ st.grid.len)
    (hfree0 : ∀ p : RcGrapheme, (st.grid.f start).2.grapheme = some p →
      p.val.color ≠ color ∨ p.val.char ≠ c.char)
    (hfree1 : ∀ p : RcGrapheme, (st.grid.f (start + 1)).2.grapheme = some p →
      p.val.color ≠ color ∨ p.val.char ≠ c.char)
    (h : drawText [c] origin size color st = some st') :
    st'.grid.f start =
      ((st.grid.f start).1,
        { (st.grid.f start).2 with grapheme := some ⟨st.nextId, ⟨c.char, 0, 2, color⟩⟩ }) ∧
    st'.grid.f (start + 1) =
      ((st.grid.f (start + 1)).1,
        { (st.grid.f (start + 1)).2 with
          grapheme := some ⟨st.nextId + 1, ⟨c.char, 1, 2, color⟩⟩ }) ∧
    (∀ i, i ≠ start → i ≠ start + 1 → st'.grid.f i = st.grid.f i) ∧
    st'.grid.len = st.grid.len ∧ st'.nextId = st.nextId + 2 := by
  rw [drawText_place _ _ _ _ _ hsize, Option.some.injEq] at h
  subst h
  have hfs : flattenText [c] color = [⟨c.char, 0, 2, color⟩, ⟨c.char, 1, 2, color⟩] := by
    simp [flattenText, hw, List.range_succ]
  have hkey : writeSeq st.grid start st.nextId (flattenText [c] color) =
      ((st.grid.set start ((st.grid.f start).1,
          { (st.grid.f start).2 with
            grapheme := some ⟨st.nextId, ⟨c.char, 0, 2, color⟩⟩ })).set
        (start + 1) ((st.grid.f (start + 1)).1,
          { (st.grid.f (start + 1)).2 with
            grapheme := some ⟨st.nextId + 1, ⟨c.char, 1, 2, color⟩⟩ }),
        st.nextId + 2) := by
    rw [hfs]
    exact writeSeq_two st.grid start st.nextId _ _ hroom hfree0 hfree1
  have hS : writeSeq st.grid
      (min st.grid.len (i32ToUsize (startIndexRaw origin.1 origin.2 st.size.width)))
      st.nextId (flattenText [c] color) =
      ((st.grid.set start ((st.grid.f start).1,
          { (st.grid.f start).2 with
            grapheme := some ⟨st.nextId, ⟨c.char, 0, 2, color⟩⟩ })).set
        (start + 1) ((st.grid.f (start + 1)).1,
          { (st.grid.f (start + 1)).2 with
            grapheme := some ⟨st.nextId + 1, ⟨c.char, 1, 2, color⟩⟩ }),
        st.nextId + 2) := by
    rw [← hs]
    exact hkey
  have hgrid : (drawTextPlace [c] origin color st).grid =
      (st.grid.set start ((st.grid.f start).1,
          { (st.grid.f start).2 with
            grapheme := some ⟨st.nextId, ⟨c.char, 0, 2, color⟩⟩ })).set
        (start + 1) ((st.grid.f (start + 1)).1,
          { (st.grid.f (start + 1)).2 with
            grapheme := some ⟨st.nextId + 1, ⟨c.char, 1, 2, color⟩⟩ }) := by
    show (writeSeq st.grid
      (min st.grid.len (i32ToUsize (startIndexRaw origin.1 origin.2 st.size.width)))
      st.nextId (flattenText [c] color)).1 = _
    rw [hS]
  have hnid : (drawTextPlace [c] origin color st).nextId = st.nextId + 2 := by
    show (writeSeq st.grid
      (min st.grid.len (i32ToUsize (startIndexRaw origin.1 origin.2 st.size.width)))
      st.nextId (flattenText [c] color)).2 = _
    rw [hS]
  refine ⟨?_, ?_, ?_, ?_, hnid⟩
  · rw [hgrid, Grid.f_set_other _ (start + 1) start _ (by omega), Grid.f_set_same]
  · rw [hgrid, Grid.f_set_same]
  · intro i hi0 hi1
    rw [hgrid, Grid.f_set_other _ (start + 1) i _ hi1, Grid.f_set_other _ start i _ hi0]
  · rw [hgrid]
    rfl

/-- Result of the C7 demonstration draw. -/
def c7Res : RState :=
  (drawText [⟨"字", 2⟩] (0, 0) ⟨0, 0⟩ ⟨7, 7, 7⟩ demoState).getD demoState

theorem draw_text_double_width_witness : c7Res.nextId = demoState.nextId + 2 :=
  (draw_text_double_width ⟨"字", 2⟩ (0, 0) ⟨0, 0⟩ ⟨7, 7, 7⟩ demoState c7Res 0
    (by decide) rfl (by decide) (by decide)
    (fun p hp => by
      rw [show (demoState.grid.f 0).2.grapheme = none from rfl] at hp
      exact Option.noConfusion hp)
    (fun p hp => by
      rw [show (demoState.grid.f 1).2.grapheme = none from rfl] at hp
      exact Option.noConfusion hp)
    rfl).2.2.2.2

/-- C8: place-mode `draw_text` never faults — the slice start is clamped to
the buffer length and the grapheme walk stops silently at the end of the
grid — the buffer keeps its length, previous cells are untouched, and no
cell outside the window `[start, start + graphemes)` is modified. -/
theorem draw_text_clipping_safe (text : List GCluster) (origin : Int × Int)
    (size : Size) (color : Color) (st : RState)
    (hsize : ¬(2 < size.width ∧ 2 < size.height)) :
    ∃ st', drawText text origin size color st = some st' ∧
      st'.grid.len = st.grid.len ∧
      (∀ i, (st'.grid.f i).1 = (st.grid.f i).1) ∧
      (∀ i, (i < min st.grid.len
            (i32ToUsize (startIndexRaw origin.1 origin.2 st.size.width)) ∨
          min st.grid.len (i32ToUsize (startIndexRaw origin.1 origin.2 st.size.width)) +
            (flattenText text color).length ≤ i) →
        st'.grid.f i = st.grid.f i) := by
  refine ⟨drawTextPlace text origin color st, drawText_place _ _ _ _ _ hsize,
    writeSeq_len _ _ _ _, fun i => (writeSeq_erase _ _ _ _).2.1 i,
    fun i hi => writeSeq_window _ _ _ _ i hi⟩

theorem draw_text_clipping_safe_witness :
    ∃ st', drawText [⟨"Z", 1⟩] (100, 100) ⟨0, 0⟩ ⟨1, 1, 1⟩ demoState = some st' ∧
      st'.grid.len = demoState.grid.len ∧
      (∀ i, (st'.grid.f i).1 = (demoState.grid.f i).1) ∧
      (∀ i, (i < min demoState.grid.len
            (i32ToUsize (startIndexRaw 100 100 demoState.size.width)) ∨
          min demoState.grid.len (i32ToUsize (startIndexRaw 100 100 demoState.size.width)) +
            (flattenText [⟨"Z", 1⟩] ⟨1, 1, 1⟩).length ≤ i) →
        st'.grid.f i = demoState.grid.f i) :=
  draw_text_clipping_safe [⟨"Z", 1⟩] (100, 100) ⟨0, 0⟩ ⟨1, 1, 1⟩ demoState (by decide)

/-! ## Place-mode start index: truncation, not rounding -/

/-- C9 (amended): place-mode `draw_text` derives its starting cell from the
pixel origin with truncating `i32` division, not rounding: the flat start
index is `origin.x / 2 + (origin.y + 1) / 4 * width` (each `/` truncating
toward zero), and the combined index — not each axis — is clamped to the
buffer length. Cells below that index are untouched, and when the text is
nonempty and the start lies inside the grid, the cell at exactly that index
receives the first grapheme write. -/
theorem draw_text_start_truncates (text : List GCluster) (origin : Int × Int)
    (size : Size) (color : Color) (st st' : RState) (start : Nat)
    (hsize : ¬(2 < size.width ∧ 2 < size.height))
    (hs : start = min st.grid.len (i32ToUsize (wrap32 (origin.1.tdiv 2 +
      wrap32 ((wrap32 (origin.2 + 1)).tdiv 4 * (st.size.width : Int))))))
    (hne : flattenText text color ≠ [])
    (hlt : start < st.grid.len)
    (h : drawText text origin size color st = some st') :
    (∀ i, i < start → st'.grid.f i = st.grid.f i) ∧
    (st'.grid.f start).2 =
      (textStep (st.grid.f start).2 ((flattenText text color).headD default)
        st.nextId).1 := by
  rw [drawText_place _ _ _ _ _ hsize, Option.some.injEq] at h
  subst h
  have hs' : start = min st.grid.len
      (i32ToUsize (startIndexRaw origin.1 origin.2 st.size.width)) := hs
  obtain ⟨n, rest, hfs⟩ := List.exists_cons_of_ne_nil hne
  have hstep : writeSeq st.grid start st.nextId (n :: rest) =
      writeSeq (st.grid.set start ((st.grid.f start).1,
          (textStep (st.grid.f start).2 n st.nextId).1)) (start + 1)
        (textStep (st.grid.f start).2 n st.nextId).2 rest := by
    simp [writeSeq, hlt]
  constructor
  · intro i hi
    show (writeSeq st.grid
      (min st.grid.len (i32ToUsize (startIndexRaw origin.1 origin.2 st.size.width)))
      st.nextId (flattenText text color)).1.f i = st.grid.f i
    rw [← hs', hfs, hstep, writeSeq_window _ _ _ _ i (Or.inl (by omega))]
    exact Grid.f_set_other st.grid start i _ (by omega)
  · show ((writeSeq st.grid
      (min st.grid.len (i32ToUsize (startIndexRaw origin.1 origin.2 st.size.width)))
      st.nextId (flattenText text color)).1.f start).2 = _
    rw [← hs', hfs, hstep, writeSeq_window _ _ _ _ start (Or.inl (by omega)),
      Grid.f_set_same]
    rw [show (n :: rest).headD default = n from rfl]

/-- A 10×1 renderer state as produced by `set_size`. -/
def c9State : RState :=
  setSize ⟨10, 1⟩
    { size := ⟨0, 0⟩, grid := ⟨0, fun _ => (Cell.new 0 0, Cell.new 0 0)⟩,
      nextId := 0, ftty := none }

/-- Place-mode draw of `"A"` at pixel origin `(3, 0)` on the 10-wide grid. -/
def c9Res : RState :=
  (drawText [⟨"A", 1⟩] (3, 0) ⟨0, 0⟩ ⟨1, 2, 3⟩ c9State).getD c9State

/-- Half-away-from-zero rounding of the start column as claim C9 states it
("the start column equals round(origin.x / 2)"). -/
def specStartColumn (ox : Int) : Int := qround ((ox : ℚ) / 2)

/-- Claim C9 as stated is false: at pixel origin `(3, 0)` the claimed start
column is `round(3 / 2) = 2`, but place-mode `draw_text` truncates `3 / 2`
to `1` — the grapheme lands in cell 1 and cell 2 keeps no grapheme. -/
theorem draw_text_rounding_counterexample :
    specStartColumn 3 = 2 ∧
    (c9Res.grid.f 1).2.grapheme = some ⟨0, ⟨"A", 0, 1, ⟨1, 2, 3⟩⟩⟩ ∧
    (c9Res.grid.f 2).2.grapheme = none := by
  refine ⟨?_, ?_, ?_⟩
  · have h2 : ((3 : Int) : ℚ) / 2 + 1 / 2 = ((2 : Int) : ℚ) := by norm_num
    have h0 : (0 : ℚ) ≤ ((3 : Int) : ℚ) / 2 := by norm_num
    rw [specStartColumn, qround, if_pos h0, h2, Int.floor_intCast]
  · decide
  · decide

/-! ## CPU fallback quantization -/

theorem pixelAt_of_lt (p : Pixels) (rl x y : Nat)
    (h : (x + y * rl) * 4 + 2 < p.len) :
    pixelAt p rl x y = some (pixelTotal p rl x y) := by
  have h1 : (x + y * rl) * 4 + 1 < p.len := by omega
  have h0 : (x + y * rl) * 4 < p.len := by omega
  simp [pixelAt, Pixels.byteAt, h, h1, h0, pixelTotal]

theorem pairAt_of_lt (p : Pixels) (rl x y : Nat)
    (h : (x + y * rl) * 4 + 2 < p.len)
    (h' : (x + (y + 1) * rl) * 4 + 2 < p.len) :
    pairAt p rl x y = some (pairTotal p rl x y) := by
  simp [pairAt, pixelAt_of_lt p rl x y h, pixelAt_of_lt p rl x (y + 1) h', pairTotal]

/-- The value `draw_background_fallback` stores in the cell at column `cx`
of cell row `cy`: the 2×2 quadrant of vertical-pair averages sampled at
pixel columns `2cx, 2cx+1` and pixel rows `4cy, 4cy+2` (top-left,
top-right, bottom-right, bottom-left), and the `binarize_quandrant` triple
of that quadrant as codepoint, background and foreground. -/
def fbExpected (binq : Quadrant → String × Color × Color) (p : Pixels)
    (rl cx cy : Nat) (c : Cell) : Cell :=
  { c with
    quadrant := (pairTotal p rl (2 * cx) (4 * cy),
      pairTotal p rl (2 * cx + 1) (4 * cy),
      pairTotal p rl (2 * cx + 1) (4 * cy + 2),
      pairTotal p rl (2 * cx) (4 * cy + 2))
    background := (binq (pairTotal p rl (2 * cx) (4 * cy),
      pairTotal p rl (2 * cx + 1) (4 * cy),
      pairTotal p rl (2 * cx + 1) (4 * cy + 2),
      pairTotal p rl (2 * cx) (4 * cy + 2))).2.1
    foreground := (binq (pairTotal p rl (2 * cx) (4 * cy),
      pairTotal p rl (2 * cx + 1) (4 * cy),
      pairTotal p rl (2 * cx + 1) (4 * cy + 2),
      pairTotal p rl (2 * cx) (4 * cy + 2))).2.2
    codepoint := glyphCodepoint (binq (pairTotal p rl (2 * cx) (4 * cy),
      pairTotal p rl (2 * cx + 1) (4 * cy),
      pairTotal p rl (2 * cx + 1) (4 * cy + 2),
      pairTotal p rl (2 * cx) (4 * cy + 2))).1 }

theorem fbCellUpdate_of_lt (binq : Quadrant → String × Color × Color)
    (p : Pixels) (rl cx cy : Nat) (c : Cell)
    (hread : ∀ x y, 2 * cx ≤ x → x ≤ 2 * cx + 1 → 4 * cy ≤ y → y ≤ 4 * cy + 3 →
      (x + y * rl) * 4 + 2 < p.len) :
    fbCellUpdate binq p rl cx cy c = some (fbExpected binq p rl cx cy c) := by
  have h1 : pairAt p rl (2 * cx) (4 * cy) = some (pairTotal p rl (2 * cx) (4 * cy)) :=
    pairAt_of_lt _ _ _ _ (hread _ _ (by omega) (by omega) (by omega) (by omega))
      (hread _ _ (by omega) (by omega) (by omega) (by omega))
  have h2 : pairAt p rl (2 * cx + 1) (4 * cy) =
      some (pairTotal p rl (2 * cx + 1) (4 * cy)) :=
    pairAt_of_lt _ _ _ _ (hread _ _ (by omega) (by omega) (by omega) (by omega))
      (hread _ _ (by omega) (by omega) (by omega) (by omega))
  have h3 : pairAt p rl (2 * cx + 1) (4 * cy + 2) =
      some (pairTotal p rl (2 * cx + 1) (4 * cy + 2)) :=
    pairAt_of_lt _ _ _ _ (hread _ _ (by omega) (by omega) (by omega) (by omega))
      (hread _ _ (by omega) (by omega) (by omega) (by omega))
  have h4 : pairAt p rl (2 * cx) (4 * cy + 2) =
      some (pairTotal p rl (2 * cx) (4 * cy + 2)) :=
    pairAt_of_lt _ _ _ _ (hread _ _ (by omega) (by omega) (by omega) (by omega))
      (hread _ _ (by omega) (by omega) (by omega) (by omega))
  simp [fbCellUpdate, h1, h2, h3, h4, fbExpected]

theorem fbCells_spec (binq : Quadrant → String × Color × Color) (p : Pixels)
    (rl W cy : Nat) :
    ∀ (n cx : Nat) (g : Grid),
      (∀ x y, 2 * cx ≤ x → x < 2 * (cx + n) → 4 * cy ≤ y → y ≤ 4 * cy + 3 →
        (x + y * rl) * 4 + 2 < p.len) →
      ∃ g', fbCells binq p rl W cy cx n g = some g' ∧
        g'.len = g.len ∧
        (∀ i, (i < (cy + 1) * W + cx ∨ (cy + 1) * W + cx + n ≤ i) → g'.f i = g.f i) ∧
        (∀ j, j < n →
          g'.f ((cy + 1) * W + cx + j) =
            ((g.f ((cy + 1) * W + cx + j)).1,
              fbExpected binq p rl (cx + j) cy (g.f ((cy + 1) * W + cx + j)).2)) := by
  intro n
  induction n with
  | zero =>
    intro cx g _
    exact ⟨g, rfl, rfl, fun i _ => rfl, fun j hj => absurd hj (by omega)⟩
  | succ n ih =>
    intro cx g hread
    have hcell := fbCellUpdate_of_lt binq p rl cx cy (g.f ((cy + 1) * W + cx)).2
      (fun x y hx1 hx2 hy1 hy2 => hread x y hx1 (by omega) hy1 hy2)
    have hstep : fbCells binq p rl W cy cx (n + 1) g =
        fbCells binq p rl W cy (cx + 1) n
          (g.set ((cy + 1) * W + cx)
            ((g.f ((cy + 1) * W + cx)).1,
              fbExpected binq p rl cx cy (g.f ((cy + 1) * W + cx)).2)) := by
      show (fbCellUpdate binq p rl cx cy (g.f ((cy + 1) * W + cx)).2).bind _ = _
      rw [hcell]
      rfl
    obtain ⟨g', hg', hlen, hframe, hvals⟩ := ih (cx + 1)
      (g.set ((cy + 1) * W + cx)
        ((g.f ((cy + 1) * W + cx)).1,
          fbExpected binq p rl cx cy (g.f ((cy + 1) * W + cx)).2))
      (fun x y hx1 hx2 hy1 hy2 => hread x y (by omega) (by omega) hy1 hy2)
    refine ⟨g', by rw [hstep]; exact hg', by rw [hlen]; rfl, ?_, ?_⟩
    · intro i hi
      rw [hframe i (by omega)]
      exact Grid.f_set_other _ _ _ _ (by omega)
    · intro j hj
      cases j with
      | zero =>
        show g'.f ((cy + 1) * W + cx + 0) = _
        rw [show (cy + 1) * W + cx + 0 = (cy + 1) * W + cx from rfl]
        rw [hframe ((cy + 1) * W + cx) (Or.inl (by omega)), Grid.f_set_same]
        rw [show cx + 0 = cx from rfl]
      | succ j =>
        have hv := hvals j (by omega)
        rw [show (cy + 1) * W + (cx + 1) + j = (cy + 1) * W + cx + (j + 1) from by omega]
          at hv
        rw [Grid.f_set_other g ((cy + 1) * W + cx) ((cy + 1) * W + cx + (j + 1)) _
          (by omega)] at hv
        rw [show cx + 1 + j = cx + (j + 1) from by omega] at hv
        exact hv

theorem fbRow_spec (binq : Quadrant → String × Color × Color) (p : Pixels)
    (rl W left right cy : Nat) (g : Grid)
    (hlr : left ≤ right) (hslice : (cy + 1) * W + right ≤ g.len)
    (hread : ∀ x y, 2 * left ≤ x → x < 2 * right → 4 * cy ≤ y → y ≤ 4 * cy + 3 →
      (x + y * rl) * 4 + 2 < p.len) :
    ∃ g', fbRow binq p rl W left right cy g = some g' ∧
      g'.len = g.len ∧
      (∀ i, (i < (cy + 1) * W + left ∨ (cy + 1) * W + right ≤ i) → g'.f i = g.f i) ∧
      (∀ cx, left ≤ cx → cx < right →
        g'.f ((cy + 1) * W + cx) =
          ((g.f ((cy + 1) * W + cx)).1,
            fbExpected binq p rl cx cy (g.f ((cy + 1) * W + cx)).2)) := by
  obtain ⟨g', hg', hlen, hframe, hvals⟩ := fbCells_spec binq p rl W cy
    (right - left) left g
    (fun x y hx1 hx2 hy1 hy2 => hread x y hx1 (by omega) hy1 hy2)
  refine ⟨g', ?_, hlen, ?_, ?_⟩
  · rw [fbRow, if_pos ⟨hlr, hslice⟩]
    exact hg'
  · intro i hi
    exact hframe i (by omega)
  · intro cx h1 h2
    have hv := hvals (cx - left) (by omega)
    rw [show (cy + 1) * W + left + (cx - left) = (cy + 1) * W + cx from by omega] at hv
    rw [show left + (cx - left) = cx from by omega] at hv
    exact hv

theorem fbRowsAux_spec (binq : Quadrant → String × Color × Color) (p : Pixels)
    (rl W left right : Nat) (hlr : left ≤ right) (hrW : right ≤ W) :
    ∀ (n top : Nat) (g : Grid),
      (∀ d, d < n → (top + d + 1) * W + right ≤ g.len) →
      (∀ x y, 2 * left ≤ x → x < 2 * right → 4 * top ≤ y → y < 4 * (top + n) →
        (x + y * rl) * 4 + 2 < p.len) →
      ∃ g', fbRowsAux binq p rl W left right top n g = some g' ∧
        g'.len = g.len ∧
        (∀ d cx, d < n → left ≤ cx → cx < right →
          g'.f ((top + d + 1) * W + cx) =
            ((g.f ((top + d + 1) * W + cx)).1,
              fbExpected binq p rl cx (top + d) (g.f ((top + d + 1) * W + cx)).2)) ∧
        (∀ i, (i < (top + 1) * W + left ∨ (top + n) * W + right ≤ i) →
          g'.f i = g.f i) := by
  intro n
  induction n with
  | zero =>
    intro top g _ _
    exact ⟨g, rfl, rfl, fun d cx hd _ _ => absurd hd (by omega), fun i _ => rfl⟩
  | succ n ih =>
    intro top g hlen hread
    have hsucc : (top + 2) * W = (top + 1) * W + W := by ring
    obtain ⟨g1, hg1, hlen1, hframe1, hvals1⟩ := fbRow_spec binq p rl W left right top g
      hlr (by have := hlen 0 (by omega); rw [show top + 0 + 1 = top + 1 from by omega] at this; exact this)
      (fun x y hx1 hx2 hy1 hy2 => hread x y hx1 hx2 hy1 (by omega))
    obtain ⟨g', hg', hlen', hvals', hframe'⟩ := ih (top + 1) g1
      (fun d hd => by
        have h0 := hlen (d + 1) (by omega)
        rw [show top + (d + 1) + 1 = top + 1 + d + 1 from by omega] at h0
        rw [hlen1]
        exact h0)
      (fun x y hx1 hx2 hy1 hy2 => hread x y hx1 hx2 (by omega) (by omega))
    refine ⟨g', ?_, hlen'.trans hlen1, ?_, ?_⟩
    · show (fbRow binq p rl W left right top g).bind _ = _
      rw [hg1]
      exact hg'
    · intro d cx hd hcx1 hcx2
      cases d with
      | zero =>
        have hsucc2 : (top + 1 + 1) * W = (top + 1) * W + W := by ring
        rw [show top + 0 + 1 = top + 1 from by omega, show top + 0 = top from rfl]
        rw [hframe' ((top + 1) * W + cx) (Or.inl (by omega))]
        exact hvals1 cx hcx1 hcx2
      | succ d =>
        have hv := hvals' d cx (by omega) hcx1 hcx2
        rw [show top + 1 + d + 1 = top + (d + 1) + 1 from by omega,
          show top + 1 + d = top + (d + 1) from by omega] at hv
        have hge : (top + 1) * W + right ≤ (top + (d + 1) + 1) * W + cx := by
          have hmono : (top + 2) * W ≤ (top + (d + 1) + 1) * W :=
            Nat.mul_le_mul_right W (by omega)
          omega
        rw [hframe1 ((top + (d + 1) + 1) * W + cx) (Or.inr hge)] at hv
        exact hv
    · intro i hi
      have hsucc2 : (top + 1 + 1) * W = (top + 1) * W + W := by ring
      have hmono2 : (top + 1) * W ≤ (top + 1 + n) * W :=
        Nat.mul_le_mul_right W (by omega)
      rcases hi with hi | hi
      · rw [hframe' i (Or.inl (by omega))]
        exact hframe1 i (Or.inl hi)
      · rw [show (top + (n + 1)) * W = (top + 1 + n) * W from by ring] at hi
        rw [hframe' i (Or.inr hi)]
        exact hframe1 i (Or.inr (by omega))

/-- C2: for every cell `(cx, cy)` inside the clipped region, the CPU
fallback sets the current cell at grid index `(cy + 1) * width + cx` to the
quadrant of vertical-pair averages sampled at pixel columns `2cx, 2cx + 1`
and pixel rows `4cy, 4cy + 2` (top-left, top-right, bottom-right,
bottom-left order, red at byte offset +2, green +1, blue +0, row stride
`pixels_size.width`), with codepoint, background and foreground taken from
the `binarize_quandrant` triple of that quadrant — the content of
`fbExpected`. Hypotheses: a well-formed clip (`left ≤ right ≤ width`,
row slices inside the grid) and a pixel buffer covering the sampled
region. -/
theorem draw_background_fallback_quantizes
    (binq : Quadrant → String × Color × Color) (p : Pixels) (pw : Nat)
    (top left right bottom : Nat) (st st' : RState)
    (hlr : left ≤ right) (hrW : right ≤ st.size.width)
    (hrows : ∀ cy, top ≤ cy → cy < bottom →
      (cy + 1) * st.size.width + right ≤ st.grid.len)
    (hread : ∀ x y, 2 * left ≤ x → x < 2 * right → 4 * top ≤ y → y < 4 * bottom →
      (x + y * pw) * 4 + 2 < p.len)
    (h : drawBackgroundFallback binq p pw top left right bottom st = some st') :
    ∀ cy cx, top ≤ cy → cy < bottom → left ≤ cx → cx < right →
      st'.grid.f ((cy + 1) * st.size.width + cx) =
        ((st.grid.f ((cy + 1) * st.size.width + cx)).1,
          fbExpected binq p pw cx cy
            (st.grid.f ((cy + 1) * st.size.width + cx)).2) := by
  rw [drawBackgroundFallback] at h
  obtain ⟨g2, hrowsrun, hst'⟩ := Option.map_eq_some'.mp h
  obtain ⟨g', hg', hlen, hvals, hframe⟩ := fbRowsAux_spec binq p pw st.size.width
    left right hlr hrW (bottom - top) top st.grid
    (fun d hd => hrows (top + d) (by omega) (by omega))
    (fun x y hx1 hx2 hy1 hy2 => hread x y hx1 hx2 hy1 (by omega))
  have hgg : g2 = g' := by
    rw [hrowsrun] at hg'
    exact Option.some.inj hg'
  subst hgg
  intro cy cx h1 h2 h3 h4
  have hv := hvals (cy - top) cx (by omega) h3 h4
  rw [show top + (cy - top) + 1 = cy + 1 from by omega,
    show top + (cy - top) = cy from by omega] at hv
  rw [← hst']
  exact hv

/-- A 32-byte pixel buffer with distinguishable bytes. -/
def c2Pixels : Pixels := ⟨32, fun i => i % 251⟩

/-- A concrete codebook lookup instantiating the external
`binarize_quandrant` contract. -/
def c2Binq : Quadrant → String × Color × Color := fun q => ("#", q.1, q.2.1)

/-- Fallback run over the single cell `(0, 0)` of the 3×2 demo grid. -/
def c2Res : RState :=
  (drawBackgroundFallback c2Binq c2Pixels 2 0 0 1 1 demoState).getD demoState

theorem draw_background_fallback_quantizes_witness :
    c2Res.grid.f ((0 + 1) * demoState.size.width + 0) =
      ((demoState.grid.f ((0 + 1) * demoState.size.width + 0)).1,
        fbExpected c2Binq c2Pixels 2 0 0
          (demoState.grid.f ((0 + 1) * demoState.size.width + 0)).2) :=
  draw_background_fallback_quantizes c2Binq c2Pixels 2 0 0 1 1 demoState c2Res
    (by decide) (by decide)
    (fun cy hc1 hc2 => by
      have hc : cy = 0 := by omega
      subst hc
      decide)
    (fun x y hx1 hx2 hy1 hy2 => by
      show (x + y * 2) * 4 + 2 < 32
      omega)
    rfl 0 0 (by decide) (by decide) (by decide) (by decide)

/-! ## Accelerated-path failure atomicity and the defensive buffer check -/

/-- C3: in the accelerated path, a non-zero execute or wait status aborts
`draw_background_fidelitty` before any readback: the whole renderer state —
in particular every cell of both the previous and the current buffer — is
returned exactly as it was. -/
theorem fidelitty_failure_atomic (o : FttyOracle) (top left right bottom : Nat)
    (st : RState) (h : o.execStatus ≠ 0 ∨ o.waitStatus ≠ 0) :
    drawBackgroundFidelitty o top left right bottom st = some st := by
  unfold drawBackgroundFidelitty
  split
  · rfl
  · dsimp only
    split
    · rfl
    · split
      · rfl
      · next hne =>
        split
        · rfl
        · next hnw =>
          exfalso
          rcases h with h | h
          · exact hne h
          · exact hnw h

/-- An oracle whose execute call fails. -/
def c3Oracle : FttyOracle := ⟨false, 1, 0, false, fun _ => ⟨0, 0, 0, 0, 0, 0, 0⟩⟩

theorem fidelitty_failure_atomic_witness :
    drawBackgroundFidelitty c3Oracle 0 0 3 2 demoState = some demoState :=
  fidelitty_failure_atomic c3Oracle 0 0 3 2 demoState (Or.inl (by decide))

/-- C4: a pixel buffer smaller than `viewport.width * viewport.height * 32`
bytes makes `draw_background` return immediately: the state, and with it
every cell of both buffers, is untouched for every rectangle. -/
theorem draw_background_undersized_noop
    (binq : Quadrant → String × Color × Color) (p : Pixels) (pixelsSize : Size)
    (rect : PixRect) (st : RState)
    (h : p.len < st.size.width * st.size.height * 8 * 4) :
    drawBackground binq p pixelsSize rect st = some st := by
  simp [drawBackground, h]

theorem draw_background_undersized_noop_witness :
    drawBackground (fun _ => ("X", Color.black, Color.black)) ⟨100, fun _ => 0⟩
      ⟨6, 8⟩ ⟨0, 0, 6, 8⟩ demoState = some demoState :=
  draw_background_undersized_noop _ _ _ _ demoState (by decide)

/-! ## `set_size` reinitialization -/

theorem posStep_iterate (W : Nat) (hW : 0 < W) :
    ∀ i, (posStep (W - 1))^[i] (0, 0) = (i % W, i / W) := by
  intro i
  induction i with
  | zero => simp
  | succ i ih =>
    rw [Function.iterate_succ_apply', ih, posStep]
    have hiW := Nat.div_add_mod i W
    by_cases h : i % W < W - 1
    · have e : i + 1 = W * (i / W) + (i % W + 1) := by omega
      have e1 : (i + 1) % W = i % W + 1 := by
        rw [e, Nat.mul_add_mod]
        exact Nat.mod_eq_of_lt (by omega)
      have e2 : (i + 1) / W = i / W := by
        rw [e, Nat.mul_add_div hW,
          Nat.div_eq_of_lt (show i % W + 1 < W by omega), Nat.add_zero]
      rw [if_pos h, e1, e2]
    · have hmod : i % W < W := Nat.mod_lt i hW
      have him : i % W = W - 1 := by omega
      have e : i + 1 = W * (i / W + 1) := by
        have : W * (i / W + 1) = W * (i / W) + W := by ring
        omega
      have e1 : (i + 1) % W = 0 := by
        rw [e]
        exact Nat.mul_mod_right W _
      have e2 : (i + 1) / W = i / W + 1 := by
        rw [e]
        exact Nat.mul_div_cancel_left _ hW
      rw [if_neg h, e1, e2]

/-- C5 (amended): for every size whose cell count `width * (height + 1)`
fits in `u32`, `set_size` rebuilds the grid as exactly
`width * (height + 1)` row-major `(previous, current)` pairs — one extra
guard row — and reinitializes every cell to its default: cursor
`(i % width, i / width)`, no grapheme (all prior `Rc` references dropped),
all-black quadrant, black background and foreground, codepoint `0x20`. -/
theorem set_size_reinitializes (size : Size) (st : RState)
    (hnof : size.width * (size.height + 1) < 2 ^ 32) :
    (setSize size st).grid.len = size.width * (size.height + 1) ∧
    ∀ i, i < size.width * (size.height + 1) →
      (setSize size st).grid.f i =
        (⟨(i % size.width, i / size.width), none,
            (Color.black, Color.black, Color.black, Color.black),
            Color.black, Color.black, 0x20⟩,
          ⟨(i % size.width, i / size.width), none,
            (Color.black, Color.black, Color.black, Color.black),
            Color.black, Color.black, 0x20⟩) := by
  have hexp : size.width * (size.height + 1) = size.width * size.height + size.width := by
    ring
  have hWH : size.width * size.height ≤ size.width * (size.height + 1) :=
    Nat.mul_le_mul_left _ (by omega)
  have hlen : (setSize size st).grid.len = size.width * (size.height + 1) := by
    show (size.width + size.width * size.height % 2 ^ 32) % 2 ^ 32 = _
    rw [Nat.mod_eq_of_lt (by omega), Nat.mod_eq_of_lt (by omega)]
    omega
  refine ⟨hlen, ?_⟩
  intro i hi
  have hW : 0 < size.width := by
    rcases Nat.eq_zero_or_pos size.width with h0 | h0
    · rw [h0] at hi; simp at hi
    · exact h0
  have hWlt : size.width < 2 ^ 32 := by omega
  have hbound : (size.width + 2 ^ 32 - 1) % 2 ^ 32 = size.width - 1 := by omega
  have hgf : (setSize size st).grid.f i =
      (Cell.new ((posStep ((size.width + 2 ^ 32 - 1) % 2 ^ 32))^[i] (0, 0)).1
        ((posStep ((size.width + 2 ^ 32 - 1) % 2 ^ 32))^[i] (0, 0)).2,
       Cell.new ((posStep ((size.width + 2 ^ 32 - 1) % 2 ^ 32))^[i] (0, 0)).1
        ((posStep ((size.width + 2 ^ 32 - 1) % 2 ^ 32))^[i] (0, 0)).2) := rfl
  rw [hgf, hbound, posStep_iterate size.width hW i]
  rfl

/-- Claim C5 as stated is false for sizes whose cell count overflows `u32`:
at 65536×65536 the `u32` count `width + width * height` wraps to `65536`,
not `65536 * (65536 + 1)`. -/
theorem set_size_overflow_counterexample :
    (setSize ⟨65536, 65536⟩
      { size := ⟨0, 0⟩, grid := ⟨0, fun _ => (Cell.new 0 0, Cell.new 0 0)⟩,
        nextId := 0, ftty := none }).grid.len = 65536 ∧
    (65536 : Nat) ≠ 65536 * (65536 + 1) := by
  constructor
  · show (65536 + 65536 * 65536 % 2 ^ 32) % 2 ^ 32 = 65536
    norm_num
  · norm_num

theorem set_size_reinitializes_witness :
    (setSize ⟨3, 2⟩
      { size := ⟨0, 0⟩, grid := ⟨0, fun _ => (Cell.new 0 0, Cell.new 0 0)⟩,
        nextId := 0, ftty := none }).grid.len = 3 * (2 + 1) ∧
    ∀ i, i < 3 * (2 + 1) →
      (setSize ⟨3, 2⟩
        { size := ⟨0, 0⟩, grid := ⟨0, fun _ => (Cell.new 0 0, Cell.new 0 0)⟩,
          nextId := 0, ftty := none }).grid.f i =
        (⟨(i % 3, i / 3), none,
            (Color.black, Color.black, Color.black, Color.black),
            Color.black, Color.black, 0x20⟩,
          ⟨(i % 3, i / 3), none,
            (Color.black, Color.black, Color.black, Color.black),
            Color.black, Color.black, 0x20⟩) :=
  set_size_reinitializes ⟨3, 2⟩
    { size := ⟨0, 0⟩, grid := ⟨0, fun _ => (Cell.new 0 0, Cell.new 0 0)⟩,
      nextId := 0, ftty := none } (by norm_num)

theorem draw_text_start_truncates_witness :
    (∀ i, i < 1 → c9Res.grid.f i = c9State.grid.f i) ∧
    (c9Res.grid.f 1).2 =
      (textStep (c9State.grid.f 1).2
        ((flattenText [⟨"A", 1⟩] ⟨1, 2, 3⟩).headD default) c9State.nextId).1 :=
  draw_text_start_truncates [⟨"A", 1⟩] (3, 0) ⟨0, 0⟩ ⟨1, 2, 3⟩ c9State c9Res 1
    (by decide) (by decide) (by decide) (by decide) rfl

end Carbonyl
